import Mathlib

/-!
# ccmath bit primitives (`ccm::support`, `bits.hpp`)

A shallow embedding of the portable bit primitives of
`include/ccmath/internal/support/bits.hpp`, followed by the integer overloads
of `ccm::isfinite` and `ccm::isnan` and by the scalar backend of the vector
facility (`simd/instructions/scalar.hpp`).

Conventions of the embedding:

* a value of an unsigned type of `digits` bits is a natural number below
  `2 ^ digits`; the template parameter `T` is represented by `digits`
  (`std::numeric_limits<T>::digits`);
* an `int` is an integer in `[-2^31, 2^31)`; `unsigned` is 32 bits wide;
* arithmetic of an unsigned type wraps: it is written with an explicit
  `% 2 ^ digits`;
* loops are functions that recurse on an explicit fuel argument and return
  `none` when the fuel runs out.
* where a signed operation can overflow or a divisor can be zero (the negation
  in `rotl`, the arithmetic of an integer element type), it has no result
  there: `none`.
-/

namespace ccm.support

/-! ## Machine integers -/

/-- The value of `static_cast<unsigned int>(cnt)` for an `int` value `cnt`. -/
def toUnsigned (cnt : Int) : Nat := (cnt % 2 ^ 32).toNat

/-- The value of an integer expression converted to `int`
(two's complement, 32 bits). -/
def toInt (z : Int) : Int := (z + 2 ^ 31) % 2 ^ 32 - 2 ^ 31

/-- The `int` range. -/
def isInt (z : Int) : Prop := -(2 ^ 31) ≤ z ∧ z < 2 ^ 31

instance (z : Int) : Decidable (isInt z) :=
  inferInstanceAs (Decidable (-(2 ^ 31) ≤ z ∧ z < 2 ^ 31))

/-- Subtraction of two values of an unsigned type of `digits` bits. -/
def subU (digits a b : Nat) : Nat := (a + 2 ^ digits - b % 2 ^ digits) % 2 ^ digits

/-- Addition of two values of an unsigned type of `digits` bits. -/
def addU (digits a b : Nat) : Nat := (a + b) % 2 ^ digits

/-- Multiplication of two values of an unsigned type of `digits` bits. -/
def mulU (digits a b : Nat) : Nat := (a * b) % 2 ^ digits

/-! ## popcount -/

/-- The loop of the portable `popcount<T>`:
`for (int i = 0; i != digits; ++i) { if ((value >> i) & 0x1) { ++count; } }`,
entered with the current `i` and `count`. -/
def popcountLoop (digits value : Nat) : Nat → Nat → Int → Option Int
  | 0, _, _ => none
  | fuel + 1, i, count =>
    if i ≠ digits then
      popcountLoop digits value fuel (i + 1)
        (if (value >>> i) &&& 0x1 ≠ 0 then count + 1 else count)
    else some count

/-- The portable `popcount<T>(T value)` (used when `__builtin_popcountg` is
absent); both arms of `is_constant_evaluated()` hold the same loop. -/
def popcount (digits value : Nat) : Option Int :=
  popcountLoop digits value (digits + 1) 0 0

/-- The closed form `popcount(unsigned char n)`. -/
def popcount_uchar (n : Nat) : Int :=
  let r := mulU 32 n 0x08040201
  let r := (mulU 32 ((r >>> 3) &&& 0x11111111) 0x11111111) >>> 28
  toInt r

/-- The closed form `popcount(unsigned short n)`. The operand is promoted to
`int`, where none of the operations below overflows; each assignment to `n`
truncates to 16 bits. In C++ `-` and `+` bind tighter than `&`. -/
def popcount_ushort (n : Nat) : Int :=
  let n := ((n - (n >>> 1)) &&& 0x5555) % 2 ^ 16
  let n := (((n &&& 0x3333) + (n >>> 2)) &&& 0x3333) % 2 ^ 16
  let n := ((n + (n >>> 4)) &&& 0x0F0F) % 2 ^ 16
  toInt (((n * 0x0101) >>> 16 : Nat) : Int)

/-- The 32-bit branch shared by `popcount(unsigned int n)` and
`popcount(unsigned long n)`. In C++ `-` and `+` bind tighter than `&`. -/
def popcount32 (n : Nat) : Int :=
  let n := (subU 32 n (n >>> 1)) &&& 0x55555555
  let n := (addU 32 (n &&& 0x33333333) (n >>> 2)) &&& 0x33333333
  let n := (addU 32 n (n >>> 4)) &&& 0x0F0F0F0F
  toInt (((mulU 32 n 0x01010101) >>> 24 : Nat) : Int)

/-- The 64-bit body shared by `popcount(unsigned long long n)` and the 64-bit
branch of `popcount(unsigned long n)`. -/
def popcount64 (n : Nat) : Int :=
  let n := subU 64 n ((n >>> 1) &&& 0x5555555555555555)
  let n := addU 64 (n &&& 0x3333333333333333) ((n >>> 2) &&& 0x3333333333333333)
  let n := (addU 64 n (n >>> 4)) &&& 0xF0F0F0F0F0F0F0F
  toInt (((mulU 64 n 0x101010101010101) >>> 56 : Nat) : Int)

/-- The closed form `popcount(unsigned int n)` where `unsigned int` has 32 bits
(the `bits == 32` arm of its `if constexpr`). -/
def popcount_uint (n : Nat) : Int := popcount32 n

/-- The closed form `popcount(unsigned long n)`; `bits` is
`std::numeric_limits<unsigned long>::digits`, 32 or 64. -/
def popcount_ulong (bits n : Nat) : Int :=
  if bits = 32 then popcount32 n else popcount64 n

/-- The closed form `popcount(unsigned long long n)`. -/
def popcount_ullong (n : Nat) : Int := popcount64 n

/-! ## rotr, rotl -/

/-- Number of bits of the type in which an operand of `digits` bits is shifted:
unsigned types narrower than `int` are promoted to `int`. -/
def promotedDigits (digits : Nat) : Nat := if digits < 32 then 32 else digits

/-- The left shift `t << k` of an operand of an unsigned type of `digits` bits,
evaluated in the promoted type. -/
def shl (digits t k : Nat) : Nat := (t <<< k) % 2 ^ promotedDigits digits

/-- The portable `rotr<T>(T t, int cnt)` (the path taken outside the MSVC
intrinsics). The result is converted back to `T`. -/
def rotr (digits t : Nat) (cnt : Int) : Nat :=
  let dig := digits
  if toUnsigned cnt % dig = 0 then t
  else if cnt < 0 then
    let cnt := toInt (cnt * -1)
    (shl digits t (toUnsigned cnt % dig) ||| (t >>> (dig - toUnsigned cnt % dig))) % 2 ^ digits
  else
    ((t >>> (toUnsigned cnt % dig)) ||| shl digits t (dig - toUnsigned cnt % dig)) % 2 ^ digits

/-- The negation `-cnt` of an `int`. It is signed arithmetic: where the result
is not an `int`, that is at `INT_MIN`, the operation is undefined, `none`. -/
def negate (cnt : Int) : Option Int :=
  if isInt (-cnt) then some (-cnt) else none

/-- The portable `rotl<T>(T t, int cnt)`: `return rotr(t, -cnt);`; `none` where
the negation is undefined. -/
def rotl (digits t : Nat) (cnt : Int) : Option Nat :=
  (negate cnt).map (fun (negated : Int) => rotr digits t negated)

/-! ## countl_zero, countr_zero -/

/-- The loop of the portable `countl_zero<T>`:
`for (unsigned shift = digits >> 1; shift; shift >>= 1)
 { T tmp = value >> shift; if (tmp) { value = tmp; } else { zero_bits |= shift; } }`,
entered with the current `shift`, `value` and `zero_bits`. -/
def countl_zeroLoop : Nat → Nat → Nat → Nat → Option Nat
  | 0, _, _, _ => none
  | fuel + 1, shift, value, zero_bits =>
    if shift ≠ 0 then
      let tmp := value >>> shift
      if tmp ≠ 0 then countl_zeroLoop fuel (shift >>> 1) tmp zero_bits
      else countl_zeroLoop fuel (shift >>> 1) value (zero_bits ||| shift)
    else some zero_bits

/-- The portable `countl_zero<T>(T value)` (used when `__builtin_clzg` is
absent); both arms of `is_constant_evaluated()` hold the same loop. -/
def countl_zero (digits value : Nat) : Option Int :=
  if value = 0 then some (digits : Int)
  else
    (countl_zeroLoop digits (digits >>> 1) value 0).map
      (fun (zero_bits : Nat) => toInt (zero_bits : Int))

/-- The loop of the portable `countr_zero<T>`:
`while (shift) { if ((value & mask) == 0) { value >>= shift; zero_bits |= shift; }
 shift >>= 1; mask >>= shift; }`,
entered with the current `shift`, `mask`, `value` and `zero_bits`. -/
def countr_zeroLoop : Nat → Nat → Nat → Nat → Nat → Option Nat
  | 0, _, _, _, _ => none
  | fuel + 1, shift, mask, value, zero_bits =>
    if shift ≠ 0 then
      if value &&& mask = 0 then
        countr_zeroLoop fuel (shift >>> 1) (mask >>> (shift >>> 1)) (value >>> shift)
          (zero_bits ||| shift)
      else countr_zeroLoop fuel (shift >>> 1) (mask >>> (shift >>> 1)) value zero_bits
    else some zero_bits

/-- The portable `countr_zero<T>(T value)` (used when `__builtin_ctzg` is
absent). -/
def countr_zero (digits value : Nat) : Option Int :=
  if value = 0 then some (digits : Int)
  else if value &&& 0x1 ≠ 0 then some 0
  else
    (countr_zeroLoop digits (digits >>> 1) ((2 ^ digits - 1) >>> (digits >>> 1)) value 0).map
      (fun (zero_bits : Nat) => toInt (zero_bits : Int))

/-! ## has_single_bit, countr_one, countl_one, bit_width -/

/-- `has_single_bit<T>(T x)`: `return x && !(x & (x - 1));`. The difference
`x - 1` is evaluated in the promoted type, and only for a nonzero `x`. -/
def has_single_bit (digits x : Nat) : Bool :=
  decide (x ≠ 0) && !decide (x &&& subU (promotedDigits digits) x 1 ≠ 0)

/-- The complement `~value` of an operand of an unsigned type of `digits` bits,
evaluated in the promoted type and converted back to `T`. -/
def bitNot (digits value : Nat) : Nat :=
  (2 ^ promotedDigits digits - 1 - value) % 2 ^ digits

/-- The function that `INTERNAL_CCM_ADD_CTZ_SPECIALIZATION(FUNC, TYPE, BUILTIN)`
defines: `return value == 0 ? std::numeric_limits<TYPE>::digits : BUILTIN(value);`.
The compiler builtin is a parameter; it is `none` where it is undefined. -/
def INTERNAL_CCM_ADD_CTZ_SPECIALIZATION (digits : Nat) (BUILTIN : Nat → Option Int)
    (value : Nat) : Option Int :=
  if value = 0 then some (digits : Int) else BUILTIN value

/-- `countr_one<T>(T value)`: `return support::countr_zero<T>(~value);`, with
the portable `countr_zero`. -/
def countr_one (digits value : Nat) : Option Int :=
  countr_zero digits (bitNot digits value)

/-- `countl_one<T>(T value)`:
`return value != max ? countl_zero(static_cast<T>(~value)) : digits;`, with the
portable `countl_zero`. -/
def countl_one (digits value : Nat) : Option Int :=
  if value ≠ 2 ^ digits - 1 then countl_zero digits (bitNot digits value)
  else some (digits : Int)

/-- `bit_width<T>(T value)`: `return digits - countl_zero(value);`, an `int`
difference, with the portable `countl_zero`. -/
def bit_width (digits value : Nat) : Option Int :=
  (countl_zero digits value).map (fun (c : Int) => toInt ((digits : Int) - c))

/-! ## bit_cast -/

/-- A trivially copyable type of `sizeof` bytes, seen through its object
representation: `isValue` holds of the values of the type, `toBits` is the
object representation of a value (the number whose base-256 digits are its
bytes) and `ofBits` is the value that an object representation holds. -/
structure ObjectType (α : Type) where
  /-- The size of the type in bytes. -/
  sizeof : Nat
  /-- The values of the type. -/
  isValue : α → Prop
  /-- The object representation of a value. -/
  toBits : α → Nat
  /-- The value held by an object representation. -/
  ofBits : Nat → α

/-- `bit_cast<To, From>(from)`: `return __builtin_bit_cast(To, from);`, the
value of `To` that the object representation of `from` holds. The guard
`sizeof(To) == sizeof(From)` is checked at compile time. -/
def bit_cast {α β : Type} (To : ObjectType β) (From : ObjectType α) (x : α) : β :=
  To.ofBits (From.toBits x)

/-- The type `std::uint64_t`. -/
def uint64_t : ObjectType Nat :=
  ObjectType.mk 8 (fun x => x < 2 ^ 64) (fun x => x % 2 ^ 64) (fun r => r % 2 ^ 64)

/-- The type `std::int64_t`, two's complement. -/
def int64_t : ObjectType Int :=
  ObjectType.mk 8 (fun x => -(2 ^ 63) ≤ x ∧ x < 2 ^ 63) (fun x => (x % 2 ^ 64).toNat)
    (fun r => ((r : Int) + 2 ^ 63) % 2 ^ 64 - 2 ^ 63)

/-- The type `std::uint32_t`. -/
def uint32_t : ObjectType Nat :=
  ObjectType.mk 4 (fun x => x < 2 ^ 32) (fun x => x % 2 ^ 32) (fun r => r % 2 ^ 32)

/-- The type `std::int32_t`, two's complement. -/
def int32_t : ObjectType Int :=
  ObjectType.mk 4 (fun x => -(2 ^ 31) ≤ x ∧ x < 2 ^ 31) (fun x => (x % 2 ^ 32).toNat)
    (fun r => ((r : Int) + 2 ^ 31) % 2 ^ 32 - 2 ^ 31)

/-- The type `double`; a value is given by its 64-bit encoding. -/
def double : ObjectType Nat :=
  ObjectType.mk 8 (fun x => x < 2 ^ 64) (fun x => x % 2 ^ 64) (fun r => r % 2 ^ 64)

/-- The type `float`; a value is given by its 32-bit encoding. -/
def float : ObjectType Nat :=
  ObjectType.mk 4 (fun x => x < 2 ^ 32) (fun x => x % 2 ^ 32) (fun r => r % 2 ^ 32)

/-- The type `unsigned char`. -/
def unsigned_char : ObjectType Nat :=
  ObjectType.mk 1 (fun x => x < 2 ^ 8) (fun x => x % 2 ^ 8) (fun r => r % 2 ^ 8)

/-- `double_to_int64(double x)`: `return bit_cast<std::int64_t>(x);`. -/
def double_to_int64 (x : Nat) : Int := bit_cast int64_t double x

/-- `int64_to_double(std::int64_t x)`: `return bit_cast<double>(x);`. -/
def int64_to_double (x : Int) : Nat := bit_cast double int64_t x

/-- `float_to_int32(float x)`: `return bit_cast<std::int32_t>(x);`. -/
def float_to_int32 (x : Nat) : Int := bit_cast int32_t float x

/-- `int32_to_float(std::int32_t x)`: `return bit_cast<float>(x);`. -/
def int32_to_float (x : Int) : Nat := bit_cast float int32_t x

/-! ## top_bits -/

/-- The floating-point types that `top_bits<T, TopBitsToTake>` accepts
(`long double` is excluded by its guard). -/
inductive Floating where
  /-- The type `double`. -/
  | isDouble : Floating
  /-- The type `float`. -/
  | isFloat : Floating

/-- `top_bits<T, TopBitsToTake>(T x)`: for `double`,
`static_cast<std::uint32_t>(bit_cast<std::uint64_t>(x) >> (64 - TopBitsToTake))`,
else `bit_cast<std::uint32_t>(x) >> (32 - TopBitsToTake)`; the shift amount is
a `std::size_t` difference (64 bits). -/
def top_bits (T : Floating) (TopBitsToTake : Nat) (x : Nat) : Nat :=
  match T with
  | Floating.isDouble => (bit_cast uint64_t double x >>> subU 64 64 TopBitsToTake) % 2 ^ 32
  | Floating.isFloat => bit_cast uint32_t float x >>> subU 64 32 TopBitsToTake

/-- `top16_bits_of_double(double x)`:
`return static_cast<std::uint32_t>(bit_cast<std::uint64_t>(x) >> 48);`. -/
def top16_bits_of_double (x : Nat) : Nat := (bit_cast uint64_t double x >>> 48) % 2 ^ 32

/-- `top12_bits_of_double(double x)`:
`return static_cast<std::uint32_t>(bit_cast<std::uint64_t>(x) >> 52);`. -/
def top12_bits_of_double (x : Nat) : Nat := (bit_cast uint64_t double x >>> 52) % 2 ^ 32

/-- `top12_bits_of_float(float x)`: `return bit_cast<std::uint32_t>(x) >> 20;`. -/
def top12_bits_of_float (x : Nat) : Nat := bit_cast uint32_t float x >>> 20

/-! ## Iteration counts and executed operations -/

/-- The loop of the portable `popcount<T>` (see `popcountLoop`) with a counter
of the executions of its body: the final `count` and the number of
iterations. -/
def popcountLoopCounted (digits value : Nat) : Nat → Nat → Int → Nat → Option (Int × Nat)
  | 0, _, _, _ => none
  | fuel + 1, i, count, iterations =>
    if i ≠ digits then
      popcountLoopCounted digits value fuel (i + 1)
        (if (value >>> i) &&& 0x1 ≠ 0 then count + 1 else count) (iterations + 1)
    else some (count, iterations)

/-- The number of iterations of the loop in a call of the portable
`popcount<T>(T value)`. -/
def popcountIterations (digits value : Nat) : Option Nat :=
  (popcountLoopCounted digits value (digits + 1) 0 0 0).map (fun r => r.2)

/-- The loop of the portable `countl_zero<T>` (see `countl_zeroLoop`) with a
counter of the executions of its body: the final `zero_bits` and the number of
iterations. -/
def countl_zeroLoopCounted : Nat → Nat → Nat → Nat → Nat → Option (Nat × Nat)
  | 0, _, _, _, _ => none
  | fuel + 1, shift, value, zero_bits, iterations =>
    if shift ≠ 0 then
      let tmp := value >>> shift
      if tmp ≠ 0 then countl_zeroLoopCounted fuel (shift >>> 1) tmp zero_bits (iterations + 1)
      else countl_zeroLoopCounted fuel (shift >>> 1) value (zero_bits ||| shift) (iterations + 1)
    else some (zero_bits, iterations)

/-- The number of iterations of the loop in a call of the portable
`countl_zero<T>(T value)`; a zero `value` returns before the loop. -/
def countl_zeroIterations (digits value : Nat) : Option Nat :=
  if value = 0 then some 0
  else (countl_zeroLoopCounted digits (digits >>> 1) value 0 0).map (fun r => r.2)

/-- The loop of the portable `countr_zero<T>` (see `countr_zeroLoop`) with a
counter of the executions of its body: the final `zero_bits` and the number of
iterations. -/
def countr_zeroLoopCounted : Nat → Nat → Nat → Nat → Nat → Nat → Option (Nat × Nat)
  | 0, _, _, _, _, _ => none
  | fuel + 1, shift, mask, value, zero_bits, iterations =>
    if shift ≠ 0 then
      if value &&& mask = 0 then
        countr_zeroLoopCounted fuel (shift >>> 1) (mask >>> (shift >>> 1)) (value >>> shift)
          (zero_bits ||| shift) (iterations + 1)
      else
        countr_zeroLoopCounted fuel (shift >>> 1) (mask >>> (shift >>> 1)) value zero_bits
          (iterations + 1)
    else some (zero_bits, iterations)

/-- The number of iterations of the loop in a call of the portable
`countr_zero<T>(T value)`; a zero `value` and an odd `value` return before the
loop. -/
def countr_zeroIterations (digits value : Nat) : Option Nat :=
  if value = 0 then some 0
  else if value &&& 0x1 ≠ 0 then some 0
  else
    (countr_zeroLoopCounted digits (digits >>> 1) ((2 ^ digits - 1) >>> (digits >>> 1))
      value 0 0).map (fun r => r.2)

/-- The amounts of the shifts that a call of the portable `rotr<T>(T t, int cnt)`
executes, in the order in which they are written (see `rotr`): none on the
early return, else those of the two shifts of the branch taken. -/
def rotrShiftAmounts (digits : Nat) (cnt : Int) : List Nat :=
  let dig := digits
  if toUnsigned cnt % dig = 0 then []
  else if cnt < 0 then
    let cnt := toInt (cnt * -1)
    [toUnsigned cnt % dig, dig - toUnsigned cnt % dig]
  else [toUnsigned cnt % dig, dig - toUnsigned cnt % dig]

/-- The value of `cnt` to which a call of the portable `rotr<T>(T t, int cnt)`
applies `cnt *= -1`, if it does (see `rotr`). -/
def rotrNegated (digits : Nat) (cnt : Int) : Option Int :=
  let dig := digits
  if toUnsigned cnt % dig = 0 then none
  else if cnt < 0 then some cnt
  else none

/-! ## Specification vocabulary -/

/-- The number of set bits of `x` among the positions below `w`. -/
def setBits (w x : Nat) : Nat := ((Finset.range w).filter (fun i => x.testBit i)).card

/-- The word whose `k` low bytes are `f` of the corresponding bytes of `n`. -/
def mapBytes (f : Nat → Nat) : Nat → Nat → Nat
  | 0, _ => 0
  | k + 1, n => f (n % 256) + 256 * mapBytes f k (n / 256)

/-- The sum of `f` over the `k` low bytes of `n`. -/
def sumBytes (f : Nat → Nat) : Nat → Nat → Nat
  | 0, _ => 0
  | k + 1, n => f (n % 256) + sumBytes f k (n / 256)

/-- What the first Hamming-weight step of `popcount64` does to one byte. -/
def hw1 (b : Nat) : Nat := b - ((b >>> 1) &&& 0x55)

/-- What the first two Hamming-weight steps of `popcount64` do to one byte. -/
def hw2 (b : Nat) : Nat := (hw1 b &&& 0x33) + ((hw1 b >>> 2) &&& 0x33)

/-- What the first three Hamming-weight steps of `popcount64` do to one byte. -/
def hw3 (b : Nat) : Nat := (hw2 b + (hw2 b >>> 4)) &&& 0x0F

end ccm.support

/-! # Classification of integers (`ccm`, `isfinite.hpp`, `isnan.hpp`) -/

namespace ccm

/-- `ccm::isfinite(Integer)`, the overload for integral types:
`return false; // All integers are finite`. -/
def isfinite (_x : Int) : Bool := false

/-- `ccm::isnan(Integer)`, the overload for integral types:
`return false; // Integers can never be NaN.` -/
def isnan (_num : Int) : Bool := false

end ccm

/-! # The scalar backend of the vector facility (`ccm::intrin`, `scalar.hpp`)

A pointer to one element is represented by the element it points to: a
function that writes through a pointer returns the new content. A member that
a constructor leaves uninitialised before writing it is a parameter `uninit`. -/

namespace ccm.intrin

/-- `simd_mask<T, abi::scalar>`. -/
structure simd_mask (T : Type) where
  /-- The only lane. -/
  m_value : Bool

/-- `simd_mask::size()`: `return 1;`. -/
def simd_mask.size (_T : Type) : Int := 1

/-- `simd_mask::get()`: `return m_value;`. -/
def simd_mask.get {T : Type} (self : simd_mask T) : Bool := self.m_value

/-- `simd_mask::operator||`. -/
def simd_mask.or {T : Type} (self other : simd_mask T) : simd_mask T :=
  simd_mask.mk (self.m_value || other.m_value)

/-- `simd_mask::operator&&`. -/
def simd_mask.and {T : Type} (self other : simd_mask T) : simd_mask T :=
  simd_mask.mk (self.m_value && other.m_value)

/-- `simd_mask::operator!`. -/
def simd_mask.not {T : Type} (self : simd_mask T) : simd_mask T :=
  simd_mask.mk (!self.m_value)

/-- `all_of(simd_mask<T, abi::scalar> const & a)`: `return a.get();`. -/
def all_of {T : Type} (a : simd_mask T) : Bool := a.get

/-- `any_of(simd_mask<T, abi::scalar> const & a)`: `return a.get();`. -/
def any_of {T : Type} (a : simd_mask T) : Bool := a.get

/-- `simd<T, abi::scalar>`. -/
structure simd (T : Type) where
  /-- The only lane. -/
  m_value : T

/-- `simd::size()`: `return 1;`. -/
def simd.size (_T : Type) : Int := 1

/-- `simd::get()`: `return m_value;`. -/
def simd.get {T : Type} (self : simd T) : T := self.m_value

/-- `simd::copy_from(T const * ptr, element_aligned_tag)`: `m_value = *ptr;`. -/
def simd.copy_from {T : Type} (_self : simd T) (ptr : T) : simd T := simd.mk ptr

/-- `simd::copy_to(T * ptr, element_aligned_tag)`: `*ptr = m_value;`; the result
is the new content of `*ptr`. -/
def simd.copy_to {T : Type} (self : simd T) (_ptr : T) : T := self.m_value

/-- An integer element type: its signedness and its number of bits. -/
structure IntegerType where
  /-- Whether the type is signed (two's complement). -/
  isSigned : Bool
  /-- The number of bits of the type. -/
  bits : Nat

/-- The type `unsigned char`. -/
def IntegerType.unsigned_char : IntegerType := IntegerType.mk false 8

/-- The type `int`. -/
def IntegerType.signed_int : IntegerType := IntegerType.mk true 32

/-- Whether `z` is a value of the type. -/
def IntegerType.holds (T : IntegerType) (z : Int) : Bool :=
  if T.isSigned = true then decide (-(2 ^ (T.bits - 1)) ≤ z ∧ z < 2 ^ (T.bits - 1))
  else decide (0 ≤ z ∧ z < 2 ^ T.bits)

/-- The type in which an operand of type `T` is evaluated: an operand of a type
narrower than `int` is promoted to `int`. -/
def IntegerType.promoted (T : IntegerType) : IntegerType :=
  if T.bits < 32 then IntegerType.signed_int else T

/-- The conversion of an integer value to `T`: the value of `T` congruent to it
modulo `2 ^ bits`. -/
def IntegerType.convert (T : IntegerType) (z : Int) : Int :=
  if T.isSigned = true then (z + 2 ^ (T.bits - 1)) % 2 ^ T.bits - 2 ^ (T.bits - 1)
  else z % 2 ^ T.bits

/-- The result of an arithmetic operation evaluated in the type `P` whose exact
result is `z`: unsigned arithmetic wraps, signed overflow is undefined
(`none`). -/
def IntegerType.result (P : IntegerType) (z : Int) : Option Int :=
  if P.isSigned = true then (if P.holds z = true then some z else none)
  else some (z % 2 ^ P.bits)

/-- The expression `x + y` on two operands of type `T`. -/
def IntegerType.add (T : IntegerType) (x y : Int) : Option Int := T.promoted.result (x + y)

/-- The expression `x - y` on two operands of type `T`. -/
def IntegerType.sub (T : IntegerType) (x y : Int) : Option Int := T.promoted.result (x - y)

/-- The expression `x * y` on two operands of type `T`. -/
def IntegerType.mul (T : IntegerType) (x y : Int) : Option Int := T.promoted.result (x * y)

/-- The expression `x / y` on two operands of type `T`: the quotient truncated
towards zero; undefined for a zero divisor. -/
def IntegerType.div (T : IntegerType) (x y : Int) : Option Int :=
  if y = 0 then none else T.promoted.result (Int.tdiv x y)

/-- The expression `-x` on an operand of type `T`. -/
def IntegerType.neg (T : IntegerType) (x : Int) : Option Int := T.promoted.result (-x)

/-- `simd::operator*`: `return simd(m_value * other.m_value);` over the integer
element type `T`; the constructor `simd(T value)` converts the product to
`T`. -/
def simd.mul (T : IntegerType) (self other : simd Int) : Option (simd Int) :=
  (T.mul self.m_value other.m_value).map (fun (r : Int) => simd.mk (T.convert r))

/-- `simd::operator/`: `return simd(m_value / other.m_value);` over the integer
element type `T`. -/
def simd.div (T : IntegerType) (self other : simd Int) : Option (simd Int) :=
  (T.div self.m_value other.m_value).map (fun (r : Int) => simd.mk (T.convert r))

/-- `simd::operator+`: `return simd(m_value + other.m_value);` over the integer
element type `T`. -/
def simd.add (T : IntegerType) (self other : simd Int) : Option (simd Int) :=
  (T.add self.m_value other.m_value).map (fun (r : Int) => simd.mk (T.convert r))

/-- `simd::operator-`, binary: `return simd(m_value - other.m_value);` over the
integer element type `T`. -/
def simd.sub (T : IntegerType) (self other : simd Int) : Option (simd Int) :=
  (T.sub self.m_value other.m_value).map (fun (r : Int) => simd.mk (T.convert r))

/-- `simd::operator-`, unary: `return simd(-m_value);` over the integer element
type `T`. -/
def simd.neg (T : IntegerType) (self : simd Int) : Option (simd Int) :=
  (T.neg self.m_value).map (fun (r : Int) => simd.mk (T.convert r))

/-- `simd::operator<`:
`return simd_mask<T, abi::scalar>(m_value < other.m_value);` over an integer
element type; both operands have the same type, so the promoted comparison is
the comparison of the values. -/
def simd.lt (self other : simd Int) : simd_mask Int :=
  simd_mask.mk (decide (self.m_value < other.m_value))

/-- `simd::operator==`:
`return simd_mask<T, abi::scalar>(m_value == other.m_value);` over an integer
element type. -/
def simd.eq (self other : simd Int) : simd_mask Int :=
  simd_mask.mk (decide (self.m_value = other.m_value))

/-- `simd_storage<T, abi::scalar>`. -/
structure simd_storage (T : Type) where
  /-- The only element. -/
  m_value : T

/-- `simd_storage::size()`: `return simd<T, Abi>::size();`. -/
def simd_storage.size (T : Type) : Int := simd.size T

/-- `simd_storage(simd<T, Abi> const & value)`:
`value.copy_to(&m_value, element_aligned_tag());`. -/
def simd_storage.ofSimd {T : Type} (uninit : T) (value : simd T) : simd_storage T :=
  simd_storage.mk (value.copy_to uninit)

/-- `simd_storage(T value)`: delegates to `simd_storage(simd<T, Abi>(value))`. -/
def simd_storage.ofValue {T : Type} (uninit : T) (value : T) : simd_storage T :=
  simd_storage.ofSimd uninit (simd.mk value)

/-- `simd_storage::operator=(simd<T, Abi> const & value)`. -/
def simd_storage.assign {T : Type} (self : simd_storage T) (value : simd T) : simd_storage T :=
  simd_storage.mk (value.copy_to self.m_value)

/-- `simd_storage::data()`: `return &m_value;`. -/
def simd_storage.data {T : Type} (self : simd_storage T) : T := self.m_value

/-- `simd_storage::operator[](int)`: `return m_value;`. -/
def simd_storage.index {T : Type} (self : simd_storage T) (_unused : Int) : T := self.m_value

/-- `simd(storage_type const & value)`:
`copy_from(value.data(), element_aligned_tag());`. -/
def simd.ofStorage {T : Type} (uninit : T) (value : simd_storage T) : simd T :=
  (simd.mk uninit).copy_from value.data

/-- `simd::operator=(storage_type const & value)`. -/
def simd.assign {T : Type} (self : simd T) (value : simd_storage T) : simd T :=
  self.copy_from value.data

/-- `simd(T const * ptr, Flags flags)`: `copy_from(ptr, flags);`. -/
def simd.ofPtr {T : Type} (uninit : T) (ptr : T) : simd T :=
  (simd.mk uninit).copy_from ptr

/-- `choose(simd_mask const & a, simd const & b, simd const & c)`:
`return simd<T, abi::scalar>(choose(a.get(), b.get(), c.get()));`. The scalar
`choose(bool, T, T)` that it calls is declared in `simd/common.hpp`, outside
this development, and is the parameter `chooseScalar`. -/
def choose {T : Type} (chooseScalar : Bool → T → T → T) (a : simd_mask T) (b c : simd T) :
    simd T :=
  simd.mk (chooseScalar a.get b.get c.get)

/-- Modelled from the spec: the scalar `choose(bool, T, T)` of `simd/common.hpp`,
which the scalar-backend `choose` calls and which is not among the sources at
hand. Selection by a boolean: the second argument where the condition is true,
else the third. -/
def scalar_choose {T : Type} (a : Bool) (b c : T) : T := if a = true then b else c

/-- The lanes of a scalar-backend mask, in order: `size()` of them, each the
value that `get()` reads. -/
def simd_mask.lanes {T : Type} (m : simd_mask T) : List Bool :=
  List.replicate (simd_mask.size T).toNat m.get

end ccm.intrin

namespace ccm.support

/-! ## The portable popcount loop -/

theorem and_one_ne_zero_iff (value i : Nat) :
    ((value >>> i) &&& 0x1 ≠ 0) ↔ value.testBit i = true := by
  rw [Nat.and_one_is_mod, Nat.testBit_to_div_mod, Nat.shiftRight_eq_div_pow]
  simp

theorem popcountLoop_spec (digits value : Nat) :
    ∀ (k fuel i : Nat) (count : Int), i + k = digits → k < fuel →
      popcountLoop digits value fuel i count
        = some (count + (((Finset.Ico i digits).filter (fun j => value.testBit j)).card : Int)) := by
  intro k
  induction k with
  | zero =>
    intro fuel i count hi hf
    obtain ⟨f, rfl⟩ : ∃ f, fuel = f + 1 := ⟨fuel - 1, by omega⟩
    have : i = digits := by omega
    subst this
    simp [popcountLoop]
  | succ k ih =>
    intro fuel i count hi hf
    obtain ⟨f, rfl⟩ : ∃ f, fuel = f + 1 := ⟨fuel - 1, by omega⟩
    have hne : i ≠ digits := by omega
    have hlt : i < digits := by omega
    rw [popcountLoop, if_pos hne, ih f (i + 1) _ (by omega) (by omega)]
    rw [← Nat.Ico_insert_succ_left hlt, Finset.filter_insert]
    by_cases hb : value.testBit i = true
    · rw [if_pos ((and_one_ne_zero_iff value i).2 hb), if_pos hb,
        Finset.card_insert_of_not_mem (by simp)]
      push_cast
      congr 1
      ring
    · rw [if_neg (fun h => hb ((and_one_ne_zero_iff value i).1 h)), if_neg hb]

theorem popcount_eq_setBits (digits value : Nat) :
    popcount digits value = some (setBits digits value : Int) := by
  unfold popcount setBits
  rw [popcountLoop_spec digits value digits (digits + 1) 0 0 (by omega) (by omega)]
  simp

theorem setBits_le (w x : Nat) : setBits w x ≤ w := by
  unfold setBits
  calc _ ≤ (Finset.range w).card := Finset.card_filter_le _ _
    _ = w := by simp

theorem setBits_zero (w : Nat) : setBits w 0 = 0 := by
  simp [setBits]

theorem setBits_all_ones (w : Nat) : setBits w (2 ^ w - 1) = w := by
  unfold setBits
  rw [Finset.filter_true_of_mem]
  · simp
  · intro i hi
    rw [Nat.testBit_two_pow_sub_one]
    simpa using hi

/-! ## Byte-wise reading of word operations -/

theorem testBit_false_of_lt {c i j : Nat} (hc : c < 2 ^ i) (hij : i ≤ j) : c.testBit j = false :=
  Nat.testBit_lt_two_pow (lt_of_lt_of_le hc (Nat.pow_le_pow_right (by decide) hij))

theorem and_add_mul (a b x y : Nat) (ha : a < 256) (hb : b < 256) :
    (a + 256 * x) &&& (b + 256 * y) = (a &&& b) + 256 * (x &&& y) := by
  have hab : a &&& b < 2 ^ 8 := Nat.and_lt_two_pow a (by simpa using hb)
  have e1 : a + 256 * x = 2 ^ 8 * x + a := by omega
  have e2 : b + 256 * y = 2 ^ 8 * y + b := by omega
  have e3 : (a &&& b) + 256 * (x &&& y) = 2 ^ 8 * (x &&& y) + (a &&& b) := by omega
  rw [e1, e2, e3]
  apply Nat.eq_of_testBit_eq
  intro i
  rw [Nat.testBit_and, Nat.testBit_mul_pow_two_add _ (by simpa using ha),
    Nat.testBit_mul_pow_two_add _ (by simpa using hb), Nat.testBit_mul_pow_two_add _ hab]
  split <;> simp [Nat.testBit_and]

theorem mapBytes_const_succ (c k : Nat) :
    mapBytes (fun _ => c) (k + 1) 0 = c + 256 * mapBytes (fun _ => c) k 0 := by
  simp [mapBytes]

theorem and_rep (c : Nat) (hc : c < 256) :
    ∀ (k x : Nat), x &&& mapBytes (fun _ => c) k 0 = mapBytes (fun b => b &&& c) k x := by
  intro k
  induction k with
  | zero => intro x; simp [mapBytes]
  | succ k ih =>
    intro x
    rw [mapBytes_const_succ]
    conv_lhs => rw [show x = x % 256 + 256 * (x / 256) by omega]
    rw [and_add_mul _ _ _ _ (by omega) hc, ih]
    rfl

theorem shift_mod_and (s c x : Nat) (hs : s ≤ 8) (hc : c < 2 ^ (8 - s)) :
    ((x >>> s) % 256) &&& c = ((x % 256) >>> s) &&& c := by
  apply Nat.eq_of_testBit_eq
  intro i
  rw [Nat.testBit_and, Nat.testBit_and, show (256 : Nat) = 2 ^ 8 by norm_num,
    Nat.testBit_mod_two_pow, Nat.testBit_shiftRight, Nat.testBit_shiftRight,
    Nat.testBit_mod_two_pow]
  by_cases hi : i < 8 - s
  · have h1 : i < 8 := by omega
    have h2 : s + i < 8 := by omega
    simp [h1, h2]
  · rw [testBit_false_of_lt hc (by omega)]
    simp

theorem shift_and_rep (s c : Nat) (hs : s ≤ 8) (hc : c < 2 ^ (8 - s)) :
    ∀ (k x : Nat),
      (x >>> s) &&& mapBytes (fun _ => c) k 0 = mapBytes (fun b => (b >>> s) &&& c) k x := by
  have hc256 : c < 256 := lt_of_lt_of_le hc (by
    calc 2 ^ (8 - s) ≤ 2 ^ 8 := Nat.pow_le_pow_right (by decide) (by omega)
      _ = 256 := by norm_num)
  intro k
  induction k with
  | zero => intro x; simp [mapBytes]
  | succ k ih =>
    intro x
    rw [mapBytes_const_succ]
    conv_lhs => rw [show x >>> s = (x >>> s) % 256 + 256 * ((x >>> s) / 256) by omega]
    rw [and_add_mul _ _ _ _ (by omega) hc256]
    have e : (x >>> s) / 256 = (x / 256) >>> s := by
      rw [Nat.shiftRight_eq_div_pow, Nat.shiftRight_eq_div_pow, Nat.div_div_eq_div_mul,
        Nat.div_div_eq_div_mul, Nat.mul_comm]
    rw [e, ih, shift_mod_and s c x hs hc]
    rfl

theorem mapBytes_congr {f g : Nat → Nat} (h : ∀ b, b < 256 → f b = g b) :
    ∀ (k x : Nat), mapBytes f k x = mapBytes g k x := by
  intro k
  induction k with
  | zero => intro x; rfl
  | succ k ih => intro x; simp only [mapBytes]; rw [h _ (by omega), ih]

theorem mapBytes_id : ∀ (k x : Nat), x < 256 ^ k → mapBytes (fun b => b) k x = x := by
  intro k
  induction k with
  | zero => intro x hx; simp at hx; simp [mapBytes, hx]
  | succ k ih =>
    intro x hx
    simp only [mapBytes]
    rw [ih (x / 256) (by rw [Nat.div_lt_iff_lt_mul (by decide)]; rw [pow_succ] at hx; exact hx)]
    omega

theorem mapBytes_le {f g : Nat → Nat} (h : ∀ b, b < 256 → f b ≤ g b) :
    ∀ (k x : Nat), mapBytes f k x ≤ mapBytes g k x := by
  intro k
  induction k with
  | zero => intro x; simp [mapBytes]
  | succ k ih =>
    intro x
    simp only [mapBytes]
    have := h (x % 256) (by omega)
    have := ih (x / 256)
    omega

theorem mapBytes_lt {f : Nat → Nat} (h : ∀ b, b < 256 → f b < 256) :
    ∀ (k x : Nat), mapBytes f k x < 256 ^ k := by
  intro k
  induction k with
  | zero => intro x; simp [mapBytes]
  | succ k ih =>
    intro x
    simp only [mapBytes]
    have := h (x % 256) (by omega)
    have := ih (x / 256)
    rw [pow_succ]
    omega

theorem mapBytes_add (f g : Nat → Nat) :
    ∀ (k x : Nat), mapBytes f k x + mapBytes g k x = mapBytes (fun b => f b + g b) k x := by
  intro k
  induction k with
  | zero => intro x; simp [mapBytes]
  | succ k ih =>
    intro x
    simp only [mapBytes]
    rw [← ih]
    omega

theorem mapBytes_sub {f g : Nat → Nat} (h : ∀ b, b < 256 → g b ≤ f b) :
    ∀ (k x : Nat), mapBytes f k x - mapBytes g k x = mapBytes (fun b => f b - g b) k x := by
  intro k
  induction k with
  | zero => intro x; simp [mapBytes]
  | succ k ih =>
    intro x
    simp only [mapBytes]
    rw [← ih]
    have := h (x % 256) (by omega)
    have := mapBytes_le h k (x / 256)
    omega

theorem mapBytes_comp (f : Nat → Nat) {g : Nat → Nat} (h : ∀ b, b < 256 → g b < 256) :
    ∀ (k x : Nat), mapBytes f k (mapBytes g k x) = mapBytes (fun b => f (g b)) k x := by
  intro k
  induction k with
  | zero => intro x; simp [mapBytes]
  | succ k ih =>
    intro x
    simp only [mapBytes]
    have := h (x % 256) (by omega)
    rw [show (g (x % 256) + 256 * mapBytes g k (x / 256)) % 256 = g (x % 256) by omega,
      show (g (x % 256) + 256 * mapBytes g k (x / 256)) / 256 = mapBytes g k (x / 256) by omega,
      ih]

theorem mapBytes_mod16 {h : Nat → Nat} (hh : ∀ b, b < 256 → h b % 16 ≤ 4) :
    ∀ (k x : Nat), mapBytes h k x % 16 ≤ 4 := by
  intro k x
  cases k with
  | zero => simp [mapBytes]
  | succ k =>
    simp only [mapBytes]
    have := hh (x % 256) (by omega)
    omega

theorem fold_nibbles {h : Nat → Nat} (hh : ∀ b, b < 256 → h b ≤ 0x44 ∧ h b % 16 ≤ 4) :
    ∀ (k x : Nat),
      (mapBytes h k x + (mapBytes h k x >>> 4)) &&& mapBytes (fun _ => 0x0F) k 0
        = mapBytes (fun b => (h b + (h b >>> 4)) &&& 0x0F) k x := by
  intro k
  induction k with
  | zero => intro x; simp [mapBytes]
  | succ k ih =>
    intro x
    rw [mapBytes_const_succ]
    simp only [mapBytes]
    have h0 := hh (x % 256) (by omega)
    have h1 := mapBytes_mod16 (fun b hb => (hh b hb).2) k (x / 256)
    generalize h (x % 256) = a at h0 ⊢
    rw [← ih (x / 256)]
    generalize mapBytes h k (x / 256) = y at h1 ⊢
    have e : a + 256 * y + ((a + 256 * y) >>> 4)
        = (a + a / 16 + 16 * (y % 16)) + 256 * (y + (y >>> 4)) := by omega
    rw [e, and_add_mul _ _ _ _ (by omega) (by norm_num)]
    congr 1
    have m : ∀ z : Nat, z &&& 0x0F = z % 16 := fun z => Nat.and_pow_two_sub_one_eq_mod z 4
    rw [m, m]
    omega

theorem top_byte (Q S L : Nat) (hS : S < 256) (hL : L < 2 ^ 56) :
    ((2 ^ 64 * Q + 2 ^ 56 * S + L) % 2 ^ 64) >>> 56 = S := by
  omega

theorem mul_ones_shift {c : Nat → Nat} (hc : ∀ b, b < 256 → c b ≤ 8) (x : Nat) :
    ((mapBytes c 8 x * 0x101010101010101) % 2 ^ 64) >>> 56 = sumBytes c 8 x := by
  simp only [mapBytes, sumBytes]
  have h0 := hc (x % 256) (Nat.mod_lt _ (by decide))
  have h1 := hc (x / 256 % 256) (Nat.mod_lt _ (by decide))
  have h2 := hc (x / 256 / 256 % 256) (Nat.mod_lt _ (by decide))
  have h3 := hc (x / 256 / 256 / 256 % 256) (Nat.mod_lt _ (by decide))
  have h4 := hc (x / 256 / 256 / 256 / 256 % 256) (Nat.mod_lt _ (by decide))
  have h5 := hc (x / 256 / 256 / 256 / 256 / 256 % 256) (Nat.mod_lt _ (by decide))
  have h6 := hc (x / 256 / 256 / 256 / 256 / 256 / 256 % 256) (Nat.mod_lt _ (by decide))
  have h7 := hc (x / 256 / 256 / 256 / 256 / 256 / 256 / 256 % 256) (Nat.mod_lt _ (by decide))
  generalize c (x % 256) = c0 at h0 ⊢
  generalize c (x / 256 % 256) = c1 at h1 ⊢
  generalize c (x / 256 / 256 % 256) = c2 at h2 ⊢
  generalize c (x / 256 / 256 / 256 % 256) = c3 at h3 ⊢
  generalize c (x / 256 / 256 / 256 / 256 % 256) = c4 at h4 ⊢
  generalize c (x / 256 / 256 / 256 / 256 / 256 % 256) = c5 at h5 ⊢
  generalize c (x / 256 / 256 / 256 / 256 / 256 / 256 % 256) = c6 at h6 ⊢
  generalize c (x / 256 / 256 / 256 / 256 / 256 / 256 / 256 % 256) = c7 at h7 ⊢
  have e : (c0 + 256 * (c1 + 256 * (c2 + 256 * (c3 + 256 * (c4 + 256 * (c5 + 256 * (c6
        + 256 * (c7 + 256 * 0)))))))) * 0x101010101010101
      = 2 ^ 64 * ((c1 + c2 + c3 + c4 + c5 + c6 + c7) + 256 * ((c2 + c3 + c4 + c5 + c6 + c7)
          + 256 * ((c3 + c4 + c5 + c6 + c7) + 256 * ((c4 + c5 + c6 + c7)
          + 256 * ((c5 + c6 + c7) + 256 * ((c6 + c7) + 256 * c7))))))
        + 2 ^ 56 * (c0 + c1 + c2 + c3 + c4 + c5 + c6 + c7)
        + (c0 + 256 * ((c0 + c1) + 256 * ((c0 + c1 + c2) + 256 * ((c0 + c1 + c2 + c3)
          + 256 * ((c0 + c1 + c2 + c3 + c4) + 256 * ((c0 + c1 + c2 + c3 + c4 + c5)
          + 256 * (c0 + c1 + c2 + c3 + c4 + c5 + c6))))))) := by
    ring
  rw [e, top_byte _ _ _ (by omega) (by omega)]
  omega

theorem setBits_split (w x : Nat) :
    setBits (8 + w) x = setBits 8 (x % 256) + setBits w (x / 256) := by
  unfold setBits
  rw [Finset.card_filter, Finset.card_filter, Finset.card_filter, Finset.sum_range_add]
  congr 1
  · apply Finset.sum_congr rfl
    intro i hi
    rw [show (256 : Nat) = 2 ^ 8 by norm_num, Nat.testBit_mod_two_pow]
    simp [Finset.mem_range.1 hi]
  · apply Finset.sum_congr rfl
    intro i _
    rw [show (256 : Nat) = 2 ^ 8 by norm_num, ← Nat.shiftRight_eq_div_pow,
      Nat.testBit_shiftRight]

theorem setBits_bytes : ∀ (k x : Nat), setBits (8 * k) x = sumBytes (setBits 8) k x := by
  intro k
  induction k with
  | zero => intro x; simp [setBits, sumBytes]
  | succ k ih =>
    intro x
    rw [show 8 * (k + 1) = 8 + 8 * k by ring, setBits_split, ih]
    rfl

set_option maxRecDepth 4000 in

theorem byte_facts :
    ∀ b, b < 256 →
      (b >>> 1) &&& 0x55 ≤ b ∧
      b - ((b >>> 1) &&& 0x55) < 256 ∧
      (let s1 := b - ((b >>> 1) &&& 0x55)
       let s2 := (s1 &&& 0x33) + ((s1 >>> 2) &&& 0x33)
       s2 ≤ 0x44 ∧ s2 % 16 ≤ 4 ∧ (s2 + (s2 >>> 4)) &&& 0x0F ≤ 8) := by
  decide

set_option maxRecDepth 4000 in

theorem byte_popcount :
    ∀ b, b < 256 →
      (let s1 := b - ((b >>> 1) &&& 0x55)
       let s2 := (s1 &&& 0x33) + ((s1 >>> 2) &&& 0x33)
       (s2 + (s2 >>> 4)) &&& 0x0F) = setBits 8 b := by
  decide

theorem popcount64_steps (n : Nat) (hn : n < 2 ^ 64) :
    (addU 64 (addU 64 (subU 64 n ((n >>> 1) &&& 0x5555555555555555) &&& 0x3333333333333333)
        ((subU 64 n ((n >>> 1) &&& 0x5555555555555555) >>> 2) &&& 0x3333333333333333))
      ((addU 64 (subU 64 n ((n >>> 1) &&& 0x5555555555555555) &&& 0x3333333333333333)
        ((subU 64 n ((n >>> 1) &&& 0x5555555555555555) >>> 2) &&& 0x3333333333333333)) >>> 4))
      &&& 0xF0F0F0F0F0F0F0F = mapBytes hw3 8 n := by
  have hn8 : n < 256 ^ 8 := by norm_num at hn ⊢; exact hn
  have m55 : (0x5555555555555555 : Nat) = mapBytes (fun _ => 0x55) 8 0 := by simp [mapBytes]
  have m33 : (0x3333333333333333 : Nat) = mapBytes (fun _ => 0x33) 8 0 := by simp [mapBytes]
  have m0F : (0xF0F0F0F0F0F0F0F : Nat) = mapBytes (fun _ => 0x0F) 8 0 := by simp [mapBytes]
  have p64 : (2 : Nat) ^ 64 = 256 ^ 8 := by norm_num
  -- step 1
  have a1 : (n >>> 1) &&& 0x5555555555555555 = mapBytes (fun b => (b >>> 1) &&& 0x55) 8 n := by
    rw [m55]; exact shift_and_rep 1 0x55 (by decide) (by decide) 8 n
  have le1 : mapBytes (fun b => (b >>> 1) &&& 0x55) 8 n ≤ n := by
    calc mapBytes (fun b => (b >>> 1) &&& 0x55) 8 n ≤ mapBytes (fun b => b) 8 n :=
          mapBytes_le (fun b hb => (byte_facts b hb).1) 8 n
      _ = n := mapBytes_id 8 n hn8
  have s1 : subU 64 n ((n >>> 1) &&& 0x5555555555555555) = mapBytes hw1 8 n := by
    rw [a1]
    have : mapBytes hw1 8 n = mapBytes (fun b => b) 8 n - mapBytes (fun b => (b >>> 1) &&& 0x55) 8 n :=
      (mapBytes_sub (fun b hb => (byte_facts b hb).1) 8 n).symm
    rw [this, mapBytes_id 8 n hn8]
    unfold subU
    omega
  have hw1_lt : ∀ b, b < 256 → hw1 b < 256 := fun b hb => (byte_facts b hb).2.1
  -- step 2
  have a2 : mapBytes hw1 8 n &&& 0x3333333333333333 = mapBytes (fun b => hw1 b &&& 0x33) 8 n := by
    rw [m33, and_rep 0x33 (by decide), mapBytes_comp _ hw1_lt]
  have b2 : (mapBytes hw1 8 n >>> 2) &&& 0x3333333333333333
      = mapBytes (fun b => (hw1 b >>> 2) &&& 0x33) 8 n := by
    rw [m33, shift_and_rep 2 0x33 (by decide) (by decide), mapBytes_comp _ hw1_lt]
  have hw2_le : ∀ b, b < 256 → hw2 b ≤ 0x44 ∧ hw2 b % 16 ≤ 4 :=
    fun b hb => ⟨(byte_facts b hb).2.2.1, (byte_facts b hb).2.2.2.1⟩
  have hw2_lt : ∀ b, b < 256 → hw2 b < 256 := fun b hb => by have := (hw2_le b hb).1; omega
  have s2 : addU 64 (mapBytes hw1 8 n &&& 0x3333333333333333)
      ((mapBytes hw1 8 n >>> 2) &&& 0x3333333333333333) = mapBytes hw2 8 n := by
    rw [a2, b2, addU, mapBytes_add]
    exact Nat.mod_eq_of_lt (by rw [p64]; exact mapBytes_lt hw2_lt 8 n)
  -- step 3
  have bound : mapBytes hw2 8 n ≤ 0x4444444444444444 := by
    calc mapBytes hw2 8 n ≤ mapBytes (fun _ => 0x44) 8 n :=
          mapBytes_le (fun b hb => (hw2_le b hb).1) 8 n
      _ = 0x4444444444444444 := by simp [mapBytes]
  rw [s1, s2, addU, Nat.mod_eq_of_lt (by omega), m0F]
  exact fold_nibbles hw2_le 8 n

theorem popcount64_eq_setBits (n : Nat) (hn : n < 2 ^ 64) :
    popcount64 n = (setBits 64 n : Int) := by
  have h3 : ∀ b, b < 256 → hw3 b = setBits 8 b := fun b hb => byte_popcount b hb
  have h3le : ∀ b, b < 256 → hw3 b ≤ 8 := fun b hb => (byte_facts b hb).2.2.2.2
  have hsum : sumBytes hw3 8 n = setBits 64 n := by
    rw [show (64 : Nat) = 8 * 8 by norm_num, setBits_bytes]
    simp only [sumBytes]
    simp only [h3 _ (Nat.mod_lt _ (by decide : 0 < 256))]
  have hle : setBits 64 n ≤ 64 := by
    unfold setBits
    calc _ ≤ (Finset.range 64).card := Finset.card_filter_le _ _
      _ = 64 := by simp
  unfold popcount64
  simp only []
  rw [popcount64_steps n hn, mulU, mul_ones_shift h3le, hsum]
  unfold toInt
  omega

set_option maxRecDepth 4000 in
theorem popcount_uchar_eq_setBits : ∀ n, n < 256 → popcount_uchar n = (setBits 8 n : Int) := by
  decide

/-! ## Claims on popcount -/

/-- C1: for every width `w` in {8,16,32,64} and every `w`-bit unsigned `x`, the
portable loop `popcount` returns the number of positions `i < w` whose bit in
`x` is 1; in particular `popcount(0) == 0` and `popcount(2^w - 1) == w`. -/
theorem popcount_loop_counts_set_bits (w x : Nat) (_hw : w ∈ [8, 16, 32, 64])
    (_hx : x < 2 ^ w) :
    popcount w x = some (((Finset.range w).filter (fun i => x.testBit i)).card : Int)
      ∧ popcount w 0 = some 0
      ∧ popcount w (2 ^ w - 1) = some (w : Int) := by
  refine ⟨popcount_eq_setBits w x, ?_, ?_⟩
  · rw [popcount_eq_setBits, setBits_zero]; rfl
  · rw [popcount_eq_setBits, setBits_all_ones]

theorem popcount_loop_counts_set_bits_witness :
    (8 ∈ [8, 16, 32, 64]) ∧ 0b1011 < 2 ^ 8 ∧ popcount 8 0b1011 = some 3
      ∧ (popcount 8 0b1011
          = some (((Finset.range 8).filter (fun i => (0b1011 : Nat).testBit i)).card : Int)
        ∧ popcount 8 0 = some 0
        ∧ popcount 8 (2 ^ 8 - 1) = some ((8 : Nat) : Int)) :=
  ⟨by decide, by decide, by decide,
    popcount_loop_counts_set_bits 8 0b1011 (by decide) (by decide)⟩

/-- C2: the claim is that the closed-form 32-bit `popcount(unsigned int)` (and
the identical 32-bit branch of `popcount(unsigned long)`) returns the number of
set bits, 3 for `0b1011` and 32 for `0xFFFFFFFF`. Evaluated on these inputs the
code returns 1 and 0, while the portable loop returns 3 and 32. -/
theorem popcount_uint_differs_from_loop :
    popcount_uint 0b1011 = 1 ∧ popcount 32 0b1011 = some 3
      ∧ popcount_uint 0xFFFFFFFF = 0 ∧ popcount 32 0xFFFFFFFF = some 32
      ∧ popcount_ulong 32 0b1011 = 1 ∧ popcount_ulong 32 0xFFFFFFFF = 0 := by
  decide

/-- C3: the claim is that the closed-form `popcount(unsigned short)` returns the
number of set bits, 3 for `0b1011` and 16 for `0xFFFF`. Evaluated on these
inputs the code returns 0 and 0, while the portable loop returns 3 and 16. -/
theorem popcount_ushort_differs_from_loop :
    popcount_ushort 0b1011 = 0 ∧ popcount 16 0b1011 = some 3
      ∧ popcount_ushort 0xFFFF = 0 ∧ popcount 16 0xFFFF = some 16 := by
  decide

/-- C4: for every 64-bit unsigned `n`, the closed-form
`popcount(unsigned long long)` and the identical 64-bit branch of
`popcount(unsigned long)`, computed modulo `2^64`, return the same count as the
portable loop `popcount`, the number of set bits of `n`; `popcount(0) == 0` and
`popcount(2^64 - 1) == 64`. -/
theorem popcount_ullong_agrees_with_loop (n : Nat) (hn : n < 2 ^ 64) :
    popcount 64 n = some (popcount_ullong n)
      ∧ popcount_ulong 64 n = popcount_ullong n
      ∧ popcount_ullong n = (((Finset.range 64).filter (fun i => n.testBit i)).card : Int)
      ∧ popcount_ullong 0 = 0
      ∧ popcount_ullong (2 ^ 64 - 1) = 64 := by
  have h : ∀ m, m < 2 ^ 64 → popcount_ullong m = (setBits 64 m : Int) :=
    fun m hm => popcount64_eq_setBits m hm
  refine ⟨?_, ?_, h n hn, ?_, ?_⟩
  · rw [popcount_eq_setBits, h n hn]
  · simp [popcount_ulong, popcount_ullong]
  · rw [h 0 (by norm_num), setBits_zero]; rfl
  · rw [h (2 ^ 64 - 1) (by norm_num), setBits_all_ones]; rfl

theorem popcount_ullong_agrees_with_loop_witness :
    0xF0F0F0F0F0F0F0F1 < 2 ^ 64
      ∧ (popcount 64 0xF0F0F0F0F0F0F0F1 = some (popcount_ullong 0xF0F0F0F0F0F0F0F1)
        ∧ popcount_ulong 64 0xF0F0F0F0F0F0F0F1 = popcount_ullong 0xF0F0F0F0F0F0F0F1
        ∧ popcount_ullong 0xF0F0F0F0F0F0F0F1
          = (((Finset.range 64).filter
              (fun i => (0xF0F0F0F0F0F0F0F1 : Nat).testBit i)).card : Int)
        ∧ popcount_ullong 0 = 0
        ∧ popcount_ullong (2 ^ 64 - 1) = 64) :=
  ⟨by decide, popcount_ullong_agrees_with_loop 0xF0F0F0F0F0F0F0F1 (by decide)⟩

/-- C5: for every 8-bit unsigned `n`, the closed-form `popcount(unsigned char)`
(multiply by `0x08040201` modulo `2^32`, shift right 3, mask `0x11111111`,
multiply by `0x11111111` modulo `2^32`, shift right 28) returns the same count
as the portable loop `popcount`, the number of set bits of `n`. -/
theorem popcount_uchar_agrees_with_loop (n : Nat) (hn : n < 2 ^ 8) :
    popcount 8 n = some (popcount_uchar n)
      ∧ popcount_uchar n = (((Finset.range 8).filter (fun i => n.testBit i)).card : Int) := by
  have h : popcount_uchar n = (setBits 8 n : Int) :=
    popcount_uchar_eq_setBits n (by norm_num at hn ⊢; exact hn)
  exact ⟨by rw [popcount_eq_setBits, h], h⟩

theorem popcount_uchar_agrees_with_loop_witness :
    0b1011 < 2 ^ 8 ∧ popcount_uchar 0b1011 = 3
      ∧ (popcount 8 0b1011 = some (popcount_uchar 0b1011)
        ∧ popcount_uchar 0b1011
          = (((Finset.range 8).filter (fun i => (0b1011 : Nat).testBit i)).card : Int)) :=
  ⟨by decide, by decide, popcount_uchar_agrees_with_loop 0b1011 (by decide)⟩



/-! ## Rotations -/

theorem rotate_right_testBit (w P x k i : Nat) (hk : k < w) (hP : w ≤ P)
    (hx : x < 2 ^ w) (hi : i < w) :
    (((x >>> k) ||| ((x <<< (w - k)) % 2 ^ P)) % 2 ^ w).testBit i
      = x.testBit (if i + k < w then i + k else i + k - w) := by
  rw [Nat.testBit_mod_two_pow, Nat.testBit_or, Nat.testBit_shiftRight, Nat.testBit_mod_two_pow,
    Nat.testBit_shiftLeft]
  have hiP : i < P := by omega
  by_cases h : i + k < w
  · have h2 : ¬ (i ≥ w - k) := by omega
    rw [if_pos h, Nat.add_comm k i]
    simp [hi, hiP, h2]
  · have h2 : i ≥ w - k := by omega
    have h3 : x.testBit (k + i) = false := testBit_false_of_lt hx (by omega)
    have h4 : i - (w - k) = i + k - w := by omega
    rw [if_neg h, h3, h4]
    simp [hi, hiP, h2]

theorem rotate_left_testBit (w P x k i : Nat) (hk0 : 0 < k) (hk : k < w) (hP : w ≤ P)
    (hx : x < 2 ^ w) (hi : i < w) :
    ((((x <<< k) % 2 ^ P) ||| (x >>> (w - k))) % 2 ^ w).testBit i
      = x.testBit (if k ≤ i then i - k else w + i - k) := by
  have h := rotate_right_testBit w P x (w - k) i (by omega) hP hx hi
  rw [show w - (w - k) = k by omega, Nat.lor_comm] at h
  rw [h]
  congr 1
  split <;> split <;> omega

theorem rotr_lt (w x : Nat) (n : Int) (hx : x < 2 ^ w) : rotr w x n < 2 ^ w := by
  unfold rotr
  simp only []
  split
  · exact hx
  · split <;> exact Nat.mod_lt _ (by positivity)

theorem toUnsigned_mod (w : Nat) (n : Int) (hw : w ∈ [8, 16, 32, 64]) :
    toUnsigned n % w = (n % (w : Int)).toNat := by
  simp only [List.mem_cons, List.mem_singleton, List.not_mem_nil, or_false] at hw
  unfold toUnsigned
  rcases hw with rfl | rfl | rfl | rfl <;> omega

theorem promotedDigits_ge (w : Nat) : w ≤ promotedDigits w := by
  unfold promotedDigits
  split <;> omega

theorem rotr_testBit (w x : Nat) (n : Int) (hw : w ∈ [8, 16, 32, 64]) (hx : x < 2 ^ w)
    (i : Nat) (hi : i < w) :
    (rotr w x n).testBit i = x.testBit (((i : Int) + n) % (w : Int)).toNat := by
  have hw0 : 0 < w := by
    simp only [List.mem_cons, List.mem_singleton, List.not_mem_nil, or_false] at hw
    omega
  have hu := toUnsigned_mod w n hw
  have hu2 := toUnsigned_mod w (toInt (n * -1)) hw
  unfold rotr shl
  simp only []
  simp only [List.mem_cons, List.mem_singleton, List.not_mem_nil, or_false] at hw
  split
  · next h0 =>
    congr 1
    rw [hu] at h0
    rcases hw with rfl | rfl | rfl | rfl <;> omega
  · next h0 =>
    split
    · next hneg =>
      have hk0 : 0 < toUnsigned (toInt (n * -1)) % w := by
        rw [hu2]; rw [hu] at h0
        unfold toInt
        rcases hw with rfl | rfl | rfl | rfl <;> omega
      rw [rotate_left_testBit w (promotedDigits w) x _ i hk0
        (Nat.mod_lt _ hw0) (promotedDigits_ge w) hx hi]
      congr 1
      rw [hu2]
      unfold toInt
      rcases hw with rfl | rfl | rfl | rfl <;> (split <;> omega)
    · next hpos =>
      rw [rotate_right_testBit w (promotedDigits w) x _ i
        (Nat.mod_lt _ hw0) (promotedDigits_ge w) hx hi]
      congr 1
      rw [hu]
      rcases hw with rfl | rfl | rfl | rfl <;> (split <;> omega)

theorem negate_eq_some (n : Int) (hn : isInt n) (hne : n ≠ -(2 ^ 31)) :
    negate n = some (-n) := by
  unfold negate
  rw [if_pos]
  unfold isInt at hn ⊢
  omega

theorem negate_int_min : negate (-(2 ^ 31)) = none := by
  decide

theorem rotl_eq_some (w x : Nat) (n : Int) (hn : isInt n) (hne : n ≠ -(2 ^ 31)) :
    rotl w x n = some (rotr w x (-n)) := by
  unfold rotl
  rw [negate_eq_some n hn hne]
  rfl

theorem rotl_int_min (w x : Nat) : rotl w x (-(2 ^ 31)) = none := by
  unfold rotl
  rw [negate_int_min]
  rfl

theorem rotr_neg_testBit (w x : Nat) (n : Int) (hw : w ∈ [8, 16, 32, 64]) (hx : x < 2 ^ w)
    (i : Nat) (hi : i < w) :
    (rotr w x (-n)).testBit i = x.testBit (((i : Int) - n) % (w : Int)).toNat := by
  rw [rotr_testBit w x _ hw hx i hi]
  congr 1

theorem rotr_neg_rotr (w x : Nat) (n : Int) (hw : w ∈ [8, 16, 32, 64]) (hx : x < 2 ^ w) :
    rotr w (rotr w x n) (-n) = x := by
  apply Nat.eq_of_testBit_eq
  intro i
  by_cases hi : i < w
  · have hw2 := hw
    simp only [List.mem_cons, List.mem_singleton, List.not_mem_nil, or_false] at hw2
    have hj : (((i : Int) - n) % (w : Int)).toNat < w := by
      rcases hw2 with rfl | rfl | rfl | rfl <;> omega
    rw [rotr_neg_testBit w _ n hw (rotr_lt w x n hx) i hi, rotr_testBit w x n hw hx _ hj]
    congr 1
    rcases hw2 with rfl | rfl | rfl | rfl <;> omega
  · rw [testBit_false_of_lt (rotr_lt w _ (-n) (rotr_lt w x n hx)) (by omega),
      testBit_false_of_lt hx (by omega)]

theorem rotr_neg_moves_bits_left (w x : Nat) (n : Int) (hw : w ∈ [8, 16, 32, 64])
    (hx : x < 2 ^ w) (i : Nat) (hi : i < w) :
    (rotr w x (-n)).testBit (((i : Int) + n) % (w : Int)).toNat = x.testBit i := by
  have hw2 := hw
  simp only [List.mem_cons, List.mem_singleton, List.not_mem_nil, or_false] at hw2
  have hj : (((i : Int) + n) % (w : Int)).toNat < w := by
    rcases hw2 with rfl | rfl | rfl | rfl <;> omega
  rw [rotr_neg_testBit w x n hw hx _ hj]
  congr 1
  rcases hw2 with rfl | rfl | rfl | rfl <;> omega

theorem rotr_int_min (w x : Nat) (hw : w ∈ [8, 16, 32, 64]) : rotr w x (-(2 ^ 31)) = x := by
  have h : toUnsigned (-(2 ^ 31)) % w = 0 := by
    rw [toUnsigned_mod w _ hw]
    simp only [List.mem_cons, List.mem_singleton, List.not_mem_nil, or_false] at hw
    rcases hw with rfl | rfl | rfl | rfl <;> omega
  unfold rotr
  simp only []
  rw [if_pos h]

theorem toInt_neg (n : Int) (hn : isInt n) (hne : n ≠ -(2 ^ 31)) : toInt (-n) = -n := by
  unfold isInt at hn
  unfold toInt
  omega

theorem toInt_neg_neg (n : Int) (hn : isInt n) : toInt (-(toInt (-n))) = n := by
  unfold isInt at hn
  unfold toInt
  omega

/-! ## Claims on rotr and rotl -/

/-- C6: the claim is that for every width `w` in {8,16,32,64}, every `w`-bit
unsigned `x` and every 32-bit signed count `n`, `rotr(x, n)` is the right
rotation of `x` by `n mod w` positions (bit `i` of the result is bit
`(i + n) mod w` of `x`) and `rotl(x, n)` is the left rotation by `n mod w` (bit
`(i + n) mod w` of the result is bit `i` of `x`), with
`rotl(0x80000000 as 32-bit, 1) == 1`. The code does so for `rotr` at every `n`
and for `rotl` at every `n` other than `INT_MIN`; at `INT_MIN`, where the claim
gives `x`, `rotl` negates `INT_MIN` and has no result. -/
theorem rotr_rotl_rotate_bits (w x : Nat) (n : Int) (hw : w ∈ [8, 16, 32, 64])
    (hx : x < 2 ^ w) (hn : isInt n) :
    rotr w x n < 2 ^ w
      ∧ (∀ i : Nat, i < w → (rotr w x n).testBit i = x.testBit (((i : Int) + n) % (w : Int)).toNat)
      ∧ (n ≠ -(2 ^ 31) → ∃ y : Nat, rotl w x n = some y ∧ y < 2 ^ w
          ∧ ∀ i : Nat, i < w → y.testBit (((i : Int) + n) % (w : Int)).toNat = x.testBit i)
      ∧ rotr w x (-(2 ^ 31)) = x
      ∧ rotl w x (-(2 ^ 31)) = none
      ∧ rotl 32 0x80000000 1 = some 1 := by
  refine ⟨rotr_lt w x n hx, fun i hi => rotr_testBit w x n hw hx i hi, ?_, rotr_int_min w x hw,
    rotl_int_min w x, by decide⟩
  intro hne
  exact ⟨rotr w x (-n), rotl_eq_some w x n hn hne, rotr_lt w x _ hx,
    fun i hi => rotr_neg_moves_bits_left w x n hw hx i hi⟩

theorem rotr_rotl_rotate_bits_witness :
    (8 ∈ [8, 16, 32, 64]) ∧ 0x81 < 2 ^ 8 ∧ isInt (-19) ∧ (-19 : Int) ≠ -(2 ^ 31)
      ∧ rotr 8 0x81 (-19) = 0x0C ∧ rotl 8 0x81 (-19) = some 0x30
      ∧ (∃ y : Nat, rotl 8 0x81 (-19) = some y ∧ y < 2 ^ 8
          ∧ ∀ i : Nat, i < 8 →
              y.testBit (((i : Int) + (-19)) % ((8 : Nat) : Int)).toNat = (0x81 : Nat).testBit i)
      ∧ rotl 8 0x81 (-(2 ^ 31)) = none :=
  ⟨by decide, by decide, by decide, by decide, by decide, by decide,
    (rotr_rotl_rotate_bits 8 0x81 (-19) (by decide) (by decide) (by decide)).2.2.1 (by decide),
    (rotr_rotl_rotate_bits 8 0x81 (-19) (by decide) (by decide) (by decide)).2.2.2.2.1⟩

/-- C7: the claim is that for every width `w` in {8,16,32,64}, every `w`-bit
unsigned `x` and every 32-bit signed count `n`, `rotl(rotr(x, n), n) == x`. The
code does so at every `n` other than `INT_MIN`; at `INT_MIN`, `rotr` returns `x`
and `rotl` negates `INT_MIN` and has no result. -/
theorem rotl_rotr_identity (w x : Nat) (n : Int) (hw : w ∈ [8, 16, 32, 64])
    (hx : x < 2 ^ w) (hn : isInt n) :
    (n ≠ -(2 ^ 31) → rotl w (rotr w x n) n = some x)
      ∧ rotr w x (-(2 ^ 31)) = x
      ∧ rotl w (rotr w x (-(2 ^ 31))) (-(2 ^ 31)) = none := by
  refine ⟨?_, rotr_int_min w x hw, rotl_int_min w _⟩
  intro hne
  rw [rotl_eq_some w _ n hn hne, rotr_neg_rotr w x n hw hx]

theorem rotl_rotr_identity_witness :
    (16 ∈ [8, 16, 32, 64]) ∧ 0x8001 < 2 ^ 16 ∧ isInt (-5) ∧ (-5 : Int) ≠ -(2 ^ 31)
      ∧ rotr 16 0x8001 (-5) = 0x0030
      ∧ rotl 16 (rotr 16 0x8001 (-5)) (-5) = some 0x8001
      ∧ rotl 16 (rotr 16 0x8001 (-(2 ^ 31))) (-(2 ^ 31)) = none :=
  ⟨by decide, by decide, by decide, by decide, by decide,
    (rotl_rotr_identity 16 0x8001 (-5) (by decide) (by decide) (by decide)).1 (by decide),
    (rotl_rotr_identity 16 0x8001 (-5) (by decide) (by decide) (by decide)).2.2⟩

/-- C8: the claim is that for every width `w` in {8,16,32,64}, every `w`-bit
unsigned `x` and every 32-bit signed count `n`, with the negation taken in
32-bit two's complement, `rotr(x, n) == rotl(x, -n)` and
`rotl(x, n) == rotr(x, -n)`: a negated count rotates in the opposite direction.
The code does so at every `n` other than `INT_MIN`, where `rotr` with the
negated count moves bit `i` of `x` up to position `(i + n) mod w`; at `INT_MIN`,
which is its own negation, `rotr` returns `x` and `rotl` negates `INT_MIN` and
has no result. -/
theorem rotr_eq_rotl_neg (w x : Nat) (n : Int) (hw : w ∈ [8, 16, 32, 64])
    (hx : x < 2 ^ w) (hn : isInt n) :
    (n ≠ -(2 ^ 31) →
        rotl w x (toInt (-n)) = some (rotr w x n)
        ∧ rotl w x n = some (rotr w x (toInt (-n)))
        ∧ (∀ i : Nat, i < w →
            (rotr w x (toInt (-n))).testBit (((i : Int) + n) % (w : Int)).toNat = x.testBit i)
        ∧ (∀ i : Nat, i < w →
            (rotr w x n).testBit i = x.testBit (((i : Int) + n) % (w : Int)).toNat))
      ∧ toInt (-(-(2 ^ 31))) = -(2 ^ 31)
      ∧ rotr w x (-(2 ^ 31)) = x
      ∧ rotl w x (-(2 ^ 31)) = none := by
  refine ⟨?_, by decide, rotr_int_min w x hw, rotl_int_min w x⟩
  intro hne
  have hneg : toInt (-n) = -n := toInt_neg n hn hne
  have hn2 : isInt (-n) := by unfold isInt at hn ⊢; omega
  have hne2 : -n ≠ -(2 ^ 31) := by unfold isInt at hn; omega
  rw [hneg]
  refine ⟨?_, rotl_eq_some w x n hn hne, fun i hi => rotr_neg_moves_bits_left w x n hw hx i hi,
    fun i hi => rotr_testBit w x n hw hx i hi⟩
  rw [rotl_eq_some w x (-n) hn2 hne2, neg_neg]

theorem rotr_eq_rotl_neg_witness :
    (8 ∈ [8, 16, 32, 64]) ∧ 0x81 < 2 ^ 8 ∧ isInt 3 ∧ (3 : Int) ≠ -(2 ^ 31)
      ∧ rotr 8 0x81 3 = 0x30 ∧ rotr 8 0x81 (-3) = 0x0C
      ∧ (rotl 8 0x81 (toInt (-3)) = some (rotr 8 0x81 3)
        ∧ rotl 8 0x81 3 = some (rotr 8 0x81 (toInt (-3)))
        ∧ (∀ i : Nat, i < 8 →
            (rotr 8 0x81 (toInt (-3))).testBit (((i : Int) + 3) % ((8 : Nat) : Int)).toNat
              = (0x81 : Nat).testBit i)
        ∧ (∀ i : Nat, i < 8 →
            (rotr 8 0x81 3).testBit i
              = (0x81 : Nat).testBit (((i : Int) + 3) % ((8 : Nat) : Int)).toNat))
      ∧ rotl 8 0x81 (-(2 ^ 31)) = none :=
  ⟨by decide, by decide, by decide, by decide, by decide, by decide,
    (rotr_eq_rotl_neg 8 0x81 3 (by decide) (by decide) (by decide)).1 (by decide),
    (rotr_eq_rotl_neg 8 0x81 3 (by decide) (by decide) (by decide)).2.2.2⟩

/-! ## The bisection loops -/

theorem two_pow_shiftRight_one (j : Nat) : (2 ^ (j + 1)) >>> 1 = 2 ^ j := by
  rw [Nat.shiftRight_eq_div_pow, pow_succ]
  simp

theorem or_eq_add_of_dvd (j z : Nat) (hz : 2 ^ (j + 1) ∣ z) : z ||| 2 ^ j = z + 2 ^ j := by
  obtain ⟨a, rfl⟩ := hz
  exact (Nat.mul_add_lt_is_or (Nat.pow_lt_pow_right (by decide) (Nat.lt_succ_self j)) a).symm

theorem countl_zeroLoop_spec :
    ∀ (j fuel v z : Nat), j < fuel → 0 < v → v < 2 ^ (2 ^ j) → 2 ^ j ∣ z →
      ∃ c, countl_zeroLoop fuel ((2 ^ j) >>> 1) v z = some (z + c) ∧ c < 2 ^ j
        ∧ 2 ^ (2 ^ j - 1 - c) ≤ v ∧ v < 2 ^ (2 ^ j - c) := by
  intro j
  induction j with
  | zero =>
    intro fuel v z hf hv0 hv _
    obtain ⟨f, rfl⟩ : ∃ f, fuel = f + 1 := ⟨fuel - 1, by omega⟩
    refine ⟨0, ?_, by simp, ?_, ?_⟩
    · simp [countl_zeroLoop]
    · simpa using hv0
    · simpa using hv
  | succ j ih =>
    intro fuel v z hf hv0 hv hz
    obtain ⟨f, rfl⟩ : ∃ f, fuel = f + 1 := ⟨fuel - 1, by omega⟩
    have hs : (2 : Nat) ^ (j + 1) = 2 ^ j + 2 ^ j := by rw [pow_succ]; omega
    have hspos : 0 < 2 ^ j := by positivity
    have hz2 : 2 ^ j ∣ z := Dvd.dvd.trans (pow_dvd_pow 2 (Nat.le_succ j)) hz
    rw [two_pow_shiftRight_one, countl_zeroLoop, if_pos (by omega)]
    simp only []
    have hvv : v < 2 ^ (2 ^ j) * 2 ^ (2 ^ j) := by rw [← pow_add, ← hs]; exact hv
    by_cases ht : v >>> (2 ^ j) ≠ 0
    · rw [if_pos ht]
      have ht1 : v >>> (2 ^ j) < 2 ^ (2 ^ j) := by
        rw [Nat.shiftRight_eq_div_pow, Nat.div_lt_iff_lt_mul (by positivity)]
        exact hvv
      obtain ⟨c, hc, hlt, hlo, hhi⟩ :=
        ih f (v >>> (2 ^ j)) z (by omega) (Nat.pos_of_ne_zero ht) ht1 hz2
      refine ⟨c, hc, by omega, ?_, ?_⟩
      · rw [Nat.shiftRight_eq_div_pow, Nat.le_div_iff_mul_le (by positivity), ← pow_add] at hlo
        rw [show 2 ^ (j + 1) - 1 - c = 2 ^ j - 1 - c + 2 ^ j by omega]
        exact hlo
      · rw [Nat.shiftRight_eq_div_pow, Nat.div_lt_iff_lt_mul (by positivity), ← pow_add] at hhi
        rw [show 2 ^ (j + 1) - c = 2 ^ j - c + 2 ^ j by omega]
        exact hhi
    · rw [if_neg ht]
      have ht0 : v >>> (2 ^ j) = 0 := by simpa using ht
      have hv1 : v < 2 ^ (2 ^ j) := by
        rw [Nat.shiftRight_eq_div_pow, Nat.div_eq_zero_iff (by positivity)] at ht0
        exact ht0
      rw [or_eq_add_of_dvd j z hz]
      obtain ⟨c, hc, hlt, hlo, hhi⟩ :=
        ih f v (z + 2 ^ j) (by omega) hv0 hv1 (Dvd.dvd.add hz2 (dvd_refl _))
      refine ⟨2 ^ j + c, by rw [hc]; congr 1; omega, by omega, ?_, ?_⟩
      · rw [show 2 ^ (j + 1) - 1 - (2 ^ j + c) = 2 ^ j - 1 - c by omega]
        exact hlo
      · rw [show 2 ^ (j + 1) - (2 ^ j + c) = 2 ^ j - c by omega]
        exact hhi

theorem toInt_of_le (c : Nat) (h : c ≤ 64) : toInt (c : Int) = (c : Int) := by
  unfold toInt
  omega

theorem countl_zero_bounds (w k x : Nat) (hwk : w = 2 ^ k) (hw64 : w ≤ 64) (hx0 : x ≠ 0)
    (hx : x < 2 ^ w) :
    ∃ c : Nat, countl_zero w x = some (c : Int) ∧ c < w
      ∧ 2 ^ (w - 1 - c) ≤ x ∧ x < 2 ^ (w - c) := by
  subst hwk
  have hk : k < 2 ^ k := Nat.lt_two_pow k
  obtain ⟨c, hc, hlt, hlo, hhi⟩ :=
    countl_zeroLoop_spec k (2 ^ k) x 0 hk (Nat.pos_of_ne_zero hx0) hx (dvd_zero _)
  refine ⟨c, ?_, hlt, hlo, hhi⟩
  unfold countl_zero
  rw [if_neg hx0, hc]
  simp only [Option.map_some', Nat.zero_add]
  rw [toInt_of_le c (by omega)]

theorem testBit_of_bounds (x m : Nat) (lo : 2 ^ m ≤ x) (hi : x < 2 ^ (m + 1)) :
    x.testBit m = true := by
  rw [Nat.testBit_to_div_mod]
  have : x / 2 ^ m = 1 :=
    Nat.div_eq_of_lt_le (by simpa using lo) (by rw [pow_succ] at hi; omega)
  simp [this]

theorem sq_sub_one_shiftRight (a : Nat) : (2 ^ (a + a) - 1) >>> a = 2 ^ a - 1 := by
  rw [Nat.shiftRight_eq_div_pow, pow_add]
  have hP : 0 < 2 ^ a := by positivity
  generalize 2 ^ a = P at hP
  have e : P * P - 1 = (P - 1) + P * (P - 1) := by
    obtain ⟨q, rfl⟩ : ∃ q, P = q + 1 := ⟨P - 1, by omega⟩
    simp only [Nat.add_sub_cancel]
    ring_nf
    omega
  rw [e, Nat.add_mul_div_left _ _ hP, Nat.div_eq_of_lt (by omega)]
  omega

theorem countr_zeroLoop_spec :
    ∀ (j fuel mask v z : Nat), j < fuel → v % 2 ^ (2 ^ j) ≠ 0 → 2 ^ j ∣ z →
      (∀ i, j = i + 1 → mask = 2 ^ (2 ^ i) - 1) →
      ∃ c, countr_zeroLoop fuel ((2 ^ j) >>> 1) mask v z = some (z + c) ∧ c < 2 ^ j
        ∧ 2 ^ c ∣ v ∧ ¬ 2 ^ (c + 1) ∣ v := by
  intro j
  induction j with
  | zero =>
    intro fuel mask v z hf hv _ _
    obtain ⟨f, rfl⟩ : ∃ f, fuel = f + 1 := ⟨fuel - 1, by omega⟩
    refine ⟨0, ?_, by simp, by simp, ?_⟩
    · simp [countr_zeroLoop]
    · simp only [pow_zero, pow_one] at hv
      simp only [Nat.zero_add, pow_one]
      omega
  | succ j ih =>
    intro fuel mask v z hf hv hz hmask
    obtain ⟨f, rfl⟩ : ∃ f, fuel = f + 1 := ⟨fuel - 1, by omega⟩
    have hs : (2 : Nat) ^ (j + 1) = 2 ^ j + 2 ^ j := by rw [pow_succ]; omega
    have hspos : 0 < 2 ^ j := by positivity
    have hSpos : 0 < 2 ^ (2 ^ j) := by positivity
    have hz2 : 2 ^ j ∣ z := Dvd.dvd.trans (pow_dvd_pow 2 (Nat.le_succ j)) hz
    have hm := hmask j rfl
    have hmask2 : ∀ i, j = i + 1 → mask >>> ((2 ^ j) >>> 1) = 2 ^ (2 ^ i) - 1 := by
      intro i hi
      subst hi
      rw [hm, two_pow_shiftRight_one, show 2 ^ (i + 1) = 2 ^ i + 2 ^ i by rw [pow_succ]; omega]
      exact sq_sub_one_shiftRight (2 ^ i)
    rw [two_pow_shiftRight_one, countr_zeroLoop, if_pos (by omega), hm,
      Nat.and_pow_two_sub_one_eq_mod]
    rw [hs, pow_add, Nat.mod_mul] at hv
    by_cases ht : v % 2 ^ (2 ^ j) = 0
    · rw [if_pos ht, or_eq_add_of_dvd j z hz, ← hm]
      have hv2 : (v >>> (2 ^ j)) % 2 ^ (2 ^ j) ≠ 0 := by
        rw [Nat.shiftRight_eq_div_pow]
        intro h0
        rw [ht, h0] at hv
        simp at hv
      obtain ⟨c, hc, hlt, hdvd, hndvd⟩ :=
        ih f _ (v >>> (2 ^ j)) (z + 2 ^ j) (by omega) hv2 (Dvd.dvd.add hz2 (dvd_refl _)) hmask2
      have hv3 : v = 2 ^ (2 ^ j) * (v >>> (2 ^ j)) := by
        rw [Nat.shiftRight_eq_div_pow]
        exact (Nat.mul_div_cancel' (Nat.dvd_of_mod_eq_zero ht)).symm
      refine ⟨2 ^ j + c, by rw [hc]; congr 1; omega, by omega, ?_, ?_⟩
      · rw [pow_add, hv3]
        exact Nat.mul_dvd_mul_left _ hdvd
      · rw [show 2 ^ j + c + 1 = 2 ^ j + (c + 1) by omega, pow_add]
        intro h
        rw [hv3] at h
        exact hndvd ((Nat.mul_dvd_mul_iff_left hSpos).1 h)
    · rw [if_neg ht, ← hm]
      obtain ⟨c, hc, hlt, hdvd, hndvd⟩ := ih f _ v z (by omega) ht hz2 hmask2
      exact ⟨c, hc, by omega, hdvd, hndvd⟩

theorem countr_zero_dvd (w k x : Nat) (hwk : w = 2 ^ (k + 1)) (hw64 : w ≤ 64) (hx0 : x ≠ 0)
    (hx : x < 2 ^ w) :
    ∃ c : Nat, countr_zero w x = some (c : Int) ∧ c < w ∧ 2 ^ c ∣ x ∧ ¬ 2 ^ (c + 1) ∣ x := by
  subst hwk
  unfold countr_zero
  rw [if_neg hx0]
  by_cases h1 : x &&& 0x1 ≠ 0
  · rw [if_pos h1]
    refine ⟨0, rfl, by positivity, by simp, ?_⟩
    rw [Nat.and_one_is_mod] at h1
    simp only [Nat.zero_add, pow_one]
    omega
  · rw [if_neg h1]
    have hk : k + 1 < 2 ^ (k + 1) := Nat.lt_two_pow (k + 1)
    have hmask : ∀ i, k + 1 = i + 1 →
        (2 ^ 2 ^ (k + 1) - 1) >>> (2 ^ (k + 1) >>> 1) = 2 ^ (2 ^ i) - 1 := by
      intro i hi
      have : k = i := by omega
      subst this
      rw [two_pow_shiftRight_one, show 2 ^ (k + 1) = 2 ^ k + 2 ^ k by rw [pow_succ]; omega]
      exact sq_sub_one_shiftRight (2 ^ k)
    obtain ⟨c, hc, hlt, hdvd, hndvd⟩ :=
      countr_zeroLoop_spec (k + 1) (2 ^ (k + 1)) _ x 0 hk
        (by rw [Nat.mod_eq_of_lt hx]; exact hx0) (dvd_zero _) hmask
    refine ⟨c, ?_, hlt, hdvd, hndvd⟩
    rw [hc]
    simp only [Option.map_some', Nat.zero_add]
    rw [toInt_of_le c (by omega)]

theorem testBit_of_dvd (x c : Nat) (hdvd : 2 ^ c ∣ x) (hndvd : ¬ 2 ^ (c + 1) ∣ x) :
    x.testBit c = true ∧ ∀ j, j < c → x.testBit j = false := by
  obtain ⟨q, rfl⟩ := hdvd
  constructor
  · rw [Nat.testBit_to_div_mod, Nat.mul_div_cancel_left _ (by positivity)]
    have : q % 2 = 1 := by
      rcases Nat.mod_two_eq_zero_or_one q with h | h
      · exfalso
        apply hndvd
        rw [pow_succ]
        exact Nat.mul_dvd_mul_left _ (Nat.dvd_of_mod_eq_zero h)
      · exact h
    simp [this]
  · intro j hj
    have h := Nat.testBit_mod_two_pow (2 ^ c * q) c j
    rw [Nat.mul_mod_right] at h
    simpa [hj] using h.symm

theorem width_is_two_pow (w : Nat) (hw : w ∈ [8, 16, 32, 64]) :
    ∃ k, w = 2 ^ (k + 1) ∧ w ≤ 64 := by
  simp only [List.mem_cons, List.mem_singleton, List.not_mem_nil, or_false] at hw
  rcases hw with rfl | rfl | rfl | rfl
  · exact ⟨2, by norm_num, by norm_num⟩
  · exact ⟨3, by norm_num, by norm_num⟩
  · exact ⟨4, by norm_num, by norm_num⟩
  · exact ⟨5, by norm_num, by norm_num⟩

/-! ## Claims on countl_zero and countr_zero -/

/-- C9: for every width `w` in {8,16,32,64} and every nonzero `w`-bit unsigned
`x`, the portable bisection `countl_zero` returns the number of consecutive zero
bits from the most-significant bit: the result `c` satisfies `0 <= c < w`, bit
`w - 1 - c` of `x` is set and every bit above it is clear. -/
theorem countl_zero_counts_leading_zeros (w x : Nat) (hw : w ∈ [8, 16, 32, 64])
    (hx0 : x ≠ 0) (hx : x < 2 ^ w) :
    ∃ c : Nat, countl_zero w x = some (c : Int) ∧ c < w
      ∧ x.testBit (w - 1 - c) = true
      ∧ ∀ j, w - 1 - c < j → j < w → x.testBit j = false := by
  obtain ⟨k, hwk, hw64⟩ := width_is_two_pow w hw
  obtain ⟨c, hc, hlt, hlo, hhi⟩ := countl_zero_bounds w (k + 1) x hwk hw64 hx0 hx
  refine ⟨c, hc, hlt, ?_, ?_⟩
  · exact testBit_of_bounds x (w - 1 - c) hlo (by rw [show w - 1 - c + 1 = w - c by omega]; exact hhi)
  · intro j hj _
    exact testBit_false_of_lt hhi (by omega)

theorem countl_zero_counts_leading_zeros_witness :
    (32 ∈ [8, 16, 32, 64]) ∧ 0x00012345 ≠ 0 ∧ 0x00012345 < 2 ^ 32
      ∧ countl_zero 32 0x00012345 = some 15
      ∧ (∃ c : Nat, countl_zero 32 0x00012345 = some (c : Int) ∧ c < 32
        ∧ (0x00012345 : Nat).testBit (32 - 1 - c) = true
        ∧ ∀ j, 32 - 1 - c < j → j < 32 → (0x00012345 : Nat).testBit j = false) :=
  ⟨by decide, by decide, by decide, by decide,
    countl_zero_counts_leading_zeros 32 0x00012345 (by decide) (by decide) (by decide)⟩

/-- C10: for every width `w` in {8,16,32,64} and every nonzero `w`-bit unsigned
`x`, the portable bisection `countr_zero` returns the number of consecutive zero
bits from the least-significant bit: the result `c` satisfies `0 <= c < w`, bit
`c` of `x` is set and every bit below it is clear (`2^c` divides `x` and
`2^(c+1)` does not). -/
theorem countr_zero_counts_trailing_zeros (w x : Nat) (hw : w ∈ [8, 16, 32, 64])
    (hx0 : x ≠ 0) (hx : x < 2 ^ w) :
    ∃ c : Nat, countr_zero w x = some (c : Int) ∧ c < w
      ∧ x.testBit c = true
      ∧ (∀ j, j < c → x.testBit j = false)
      ∧ 2 ^ c ∣ x ∧ ¬ 2 ^ (c + 1) ∣ x := by
  obtain ⟨k, hwk, hw64⟩ := width_is_two_pow w hw
  obtain ⟨c, hc, hlt, hdvd, hndvd⟩ := countr_zero_dvd w k x hwk hw64 hx0 hx
  exact ⟨c, hc, hlt, (testBit_of_dvd x c hdvd hndvd).1, (testBit_of_dvd x c hdvd hndvd).2,
    hdvd, hndvd⟩

theorem countr_zero_counts_trailing_zeros_witness :
    (16 ∈ [8, 16, 32, 64]) ∧ 0xA540 ≠ 0 ∧ 0xA540 < 2 ^ 16
      ∧ countr_zero 16 0xA540 = some 6
      ∧ (∃ c : Nat, countr_zero 16 0xA540 = some (c : Int) ∧ c < 16
        ∧ (0xA540 : Nat).testBit c = true
        ∧ (∀ j, j < c → (0xA540 : Nat).testBit j = false)
        ∧ 2 ^ c ∣ 0xA540 ∧ ¬ 2 ^ (c + 1) ∣ 0xA540) :=
  ⟨by decide, by decide, by decide, by decide,
    countr_zero_counts_trailing_zeros 16 0xA540 (by decide) (by decide) (by decide)⟩

/-! ## Zero inputs, bit_width, has_single_bit and counting ones -/

theorem countl_zero_zero (w : Nat) : countl_zero w 0 = some (w : Int) := by
  simp [countl_zero]

theorem countr_zero_zero (w : Nat) : countr_zero w 0 = some (w : Int) := by
  simp [countr_zero]

theorem bit_width_zero (w : Nat) : bit_width w 0 = some 0 := by
  unfold bit_width
  rw [countl_zero_zero]
  simp only [Option.map_some', sub_self]
  rfl

theorem bit_width_bounds (w x : Nat) (hw : w ∈ [8, 16, 32, 64]) (hx0 : x ≠ 0) (hx : x < 2 ^ w) :
    ∃ b : Nat, bit_width w x = some (b : Int) ∧ 0 < b ∧ b ≤ w
      ∧ 2 ^ (b - 1) ≤ x ∧ x < 2 ^ b := by
  obtain ⟨k, hwk, hw64⟩ := width_is_two_pow w hw
  obtain ⟨c, hc, hlt, hlo, hhi⟩ := countl_zero_bounds w (k + 1) x hwk hw64 hx0 hx
  refine ⟨w - c, ?_, by omega, by omega, ?_, hhi⟩
  · unfold bit_width
    rw [hc]
    simp only [Option.map_some']
    have e : ((w : Int) - (c : Int)) = ((w - c : Nat) : Int) := by omega
    rw [e, toInt_of_le _ (by omega)]
  · rw [show w - c - 1 = w - 1 - c by omega]
    exact hlo

theorem two_pow_lt_two_pow_imp {a b : Nat} (h : 2 ^ a < 2 ^ b) : a < b :=
  (Nat.pow_lt_pow_iff_right (by decide : 1 < 2)).1 h

theorem and_pred_eq_zero_iff : ∀ x : Nat, 0 < x → (x &&& (x - 1) = 0 ↔ ∃ k, x = 2 ^ k) := by
  intro x
  induction x using Nat.strong_induction_on with
  | _ x ih =>
    intro hx
    have hhalf : (x &&& (x - 1)) / 2 = x / 2 &&& (x - 1) / 2 := Nat.and_div_two
    rcases Nat.mod_two_eq_zero_or_one x with h0 | h1
    · -- even
      obtain ⟨y, rfl⟩ : ∃ y, x = 2 * y := ⟨x / 2, by omega⟩
      have hy : 0 < y := by omega
      have hbit : (2 * y &&& (2 * y - 1)) % 2 = 0 := by
        have h := Nat.testBit_and (2 * y) (2 * y - 1) 0
        rw [Nat.testBit_zero, Nat.testBit_zero, Nat.testBit_zero] at h
        have h2 : ¬ (2 * y % 2 = 1) := by omega
        simp only [h2, decide_False, Bool.false_and, decide_eq_false_iff_not] at h
        omega
      rw [show 2 * y / 2 = y by omega, show (2 * y - 1) / 2 = y - 1 by omega] at hhalf
      have hiff : (2 * y &&& (2 * y - 1) = 0) ↔ (y &&& (y - 1) = 0) := by
        constructor
        · intro h; rw [h] at hhalf; exact hhalf.symm
        · intro h; rw [h] at hhalf; omega
      rw [hiff, ih y (by omega) hy]
      constructor
      · rintro ⟨k, rfl⟩
        exact ⟨k + 1, by rw [pow_succ]; ring⟩
      · rintro ⟨k, hk⟩
        cases k with
        | zero => rw [pow_zero] at hk; omega
        | succ k => exact ⟨k, by rw [pow_succ] at hk; omega⟩
    · -- odd
      obtain ⟨y, rfl⟩ : ∃ y, x = 2 * y + 1 := ⟨x / 2, by omega⟩
      rw [show (2 * y + 1) / 2 = y by omega, show (2 * y + 1 - 1) / 2 = y by omega,
        Nat.and_self] at hhalf
      by_cases hy : y = 0
      · subst hy
        simp only [Nat.mul_zero, Nat.zero_add, Nat.sub_self, Nat.and_zero, true_iff]
        exact ⟨0, rfl⟩
      · constructor
        · intro h; rw [h] at hhalf; omega
        · rintro ⟨k, hk⟩
          cases k with
          | zero => rw [pow_zero] at hk; omega
          | succ k => rw [pow_succ] at hk; omega

theorem subU_one (P x : Nat) (hx0 : x ≠ 0) (hx : x < 2 ^ P) : subU P x 1 = x - 1 := by
  unfold subU
  have h1 : 1 < 2 ^ P := by omega
  rw [Nat.mod_eq_of_lt h1, show x + 2 ^ P - 1 = (x - 1) + 2 ^ P by omega,
    Nat.add_mod_right, Nat.mod_eq_of_lt (by omega)]

theorem has_single_bit_iff (w x : Nat) (hx : x < 2 ^ w) :
    has_single_bit w x = true ↔ ∃ k, k < w ∧ x = 2 ^ k := by
  unfold has_single_bit
  by_cases hx0 : x = 0
  · subst hx0
    simp only [ne_eq, not_true_eq_false, decide_False, Bool.false_and, Bool.false_eq_true,
      false_iff, not_exists, not_and]
    intro k _ h
    have : 0 < 2 ^ k := by positivity
    omega
  · have hP : x < 2 ^ promotedDigits w :=
      lt_of_lt_of_le hx (Nat.pow_le_pow_right (by decide) (promotedDigits_ge w))
    rw [subU_one _ x hx0 hP]
    simp only [ne_eq, hx0, not_false_eq_true, decide_True, Bool.true_and, decide_not,
      Bool.not_not, decide_eq_true_eq]
    rw [and_pred_eq_zero_iff x (Nat.pos_of_ne_zero hx0)]
    constructor
    · rintro ⟨k, rfl⟩
      exact ⟨k, (Nat.pow_lt_pow_iff_right (by decide : 1 < 2)).1 hx, rfl⟩
    · rintro ⟨k, _, rfl⟩
      exact ⟨k, rfl⟩

theorem bitNot_eq (w x : Nat) (hw : w ∈ [8, 16, 32, 64]) (hx : x < 2 ^ w) :
    bitNot w x = 2 ^ w - 1 - x := by
  simp only [List.mem_cons, List.mem_singleton, List.not_mem_nil, or_false] at hw
  unfold bitNot promotedDigits
  rcases hw with rfl | rfl | rfl | rfl <;> norm_num at hx ⊢ <;> omega

theorem bitNot_testBit (w x : Nat) (hw : w ∈ [8, 16, 32, 64]) (hx : x < 2 ^ w) (j : Nat)
    (hj : j < w) : (bitNot w x).testBit j = !x.testBit j := by
  rw [bitNot_eq w x hw hx, show 2 ^ w - 1 - x = 2 ^ w - (x + 1) by omega,
    Nat.testBit_two_pow_sub_succ hx]
  simp [hj]

theorem bitNot_lt (w x : Nat) : bitNot w x < 2 ^ w :=
  Nat.mod_lt _ (by positivity)

theorem bitNot_eq_zero_iff (w x : Nat) (hw : w ∈ [8, 16, 32, 64]) (hx : x < 2 ^ w) :
    bitNot w x = 0 ↔ x = 2 ^ w - 1 := by
  rw [bitNot_eq w x hw hx]
  omega

theorem countl_one_eq (w x : Nat) (hw : w ∈ [8, 16, 32, 64]) (hx : x < 2 ^ w) :
    countl_one w x = countl_zero w (bitNot w x) := by
  unfold countl_one
  split
  · rfl
  · next h =>
    have h2 : x = 2 ^ w - 1 := by simpa using h
    rw [(bitNot_eq_zero_iff w x hw hx).2 h2, countl_zero_zero]

theorem countl_one_bits (w x : Nat) (hw : w ∈ [8, 16, 32, 64]) (hx : x < 2 ^ w)
    (hne : x ≠ 2 ^ w - 1) :
    ∃ c : Nat, countl_one w x = some (c : Int) ∧ c < w
      ∧ x.testBit (w - 1 - c) = false
      ∧ ∀ j, w - 1 - c < j → j < w → x.testBit j = true := by
  obtain ⟨k, hwk, hw64⟩ := width_is_two_pow w hw
  have hy0 : bitNot w x ≠ 0 := fun h => hne ((bitNot_eq_zero_iff w x hw hx).1 h)
  obtain ⟨c, hc, hlt, hlo, hhi⟩ :=
    countl_zero_bounds w (k + 1) (bitNot w x) hwk hw64 hy0 (bitNot_lt w x)
  refine ⟨c, by rw [countl_one_eq w x hw hx, hc], hlt, ?_, ?_⟩
  · have h := testBit_of_bounds (bitNot w x) (w - 1 - c) hlo
      (by rw [show w - 1 - c + 1 = w - c by omega]; exact hhi)
    rw [bitNot_testBit w x hw hx _ (by omega)] at h
    simpa using h
  · intro j hj hjw
    have h : (bitNot w x).testBit j = false := testBit_false_of_lt hhi (by omega)
    rw [bitNot_testBit w x hw hx j hjw] at h
    simpa using h

theorem countr_one_bits (w x : Nat) (hw : w ∈ [8, 16, 32, 64]) (hx : x < 2 ^ w)
    (hne : x ≠ 2 ^ w - 1) :
    ∃ c : Nat, countr_one w x = some (c : Int) ∧ c < w
      ∧ x.testBit c = false
      ∧ ∀ j, j < c → x.testBit j = true := by
  obtain ⟨k, hwk, hw64⟩ := width_is_two_pow w hw
  have hy0 : bitNot w x ≠ 0 := fun h => hne ((bitNot_eq_zero_iff w x hw hx).1 h)
  obtain ⟨c, hc, hlt, hdvd, hndvd⟩ :=
    countr_zero_dvd w k (bitNot w x) hwk hw64 hy0 (bitNot_lt w x)
  obtain ⟨hb, hbelow⟩ := testBit_of_dvd (bitNot w x) c hdvd hndvd
  refine ⟨c, hc, hlt, ?_, ?_⟩
  · rw [bitNot_testBit w x hw hx _ hlt] at hb
    simpa using hb
  · intro j hj
    have h := hbelow j hj
    rw [bitNot_testBit w x hw hx j (by omega)] at h
    simpa using h

/-! ## Claims on the zero boundary, bit_width, has_single_bit and counting ones -/

/-- C11: for every supported width `w` in {8,16,32,64}, `countl_zero(0) == w` and
`countr_zero(0) == w`, both in the portable fallbacks and in the builtin-backed
specializations, which return `digits` when `value == 0` whatever the builtin
is; e.g. `countl_zero(0 as 8-bit) == 8`. -/
theorem zero_counts_of_zero_are_width (w : Nat) (_hw : w ∈ [8, 16, 32, 64]) :
    countl_zero w 0 = some (w : Int) ∧ countr_zero w 0 = some (w : Int)
      ∧ (∀ BUILTIN : Nat → Option Int,
          INTERNAL_CCM_ADD_CTZ_SPECIALIZATION w BUILTIN 0 = some (w : Int))
      ∧ countl_zero 8 0 = some 8 := by
  refine ⟨countl_zero_zero w, countr_zero_zero w, ?_, countl_zero_zero 8⟩
  intro BUILTIN
  simp [INTERNAL_CCM_ADD_CTZ_SPECIALIZATION]

theorem zero_counts_of_zero_are_width_witness :
    (16 ∈ [8, 16, 32, 64])
      ∧ (countl_zero 16 0 = some ((16 : Nat) : Int) ∧ countr_zero 16 0 = some ((16 : Nat) : Int)
        ∧ (∀ BUILTIN : Nat → Option Int,
            INTERNAL_CCM_ADD_CTZ_SPECIALIZATION 16 BUILTIN 0 = some ((16 : Nat) : Int))
        ∧ countl_zero 8 0 = some 8) :=
  ⟨by decide, zero_counts_of_zero_are_width 16 (by decide)⟩

/-- C12: for every width `w` in {8,16,32,64} and every `w`-bit unsigned `x`,
`bit_width(x)`, computed as `w - countl_zero(x)` with the portable `countl_zero`,
is 0 when `x == 0`, and for every nonzero `x` it is a `b` with
`2^(b - 1) <= x < 2^b`, the least number of bits in which `x` fits. -/
theorem bit_width_is_least_bit_count (w x : Nat) (hw : w ∈ [8, 16, 32, 64])
    (hx : x < 2 ^ w) :
    bit_width w 0 = some 0
      ∧ (x ≠ 0 → ∃ b : Nat, bit_width w x = some (b : Int)
          ∧ 2 ^ (b - 1) ≤ x ∧ x < 2 ^ b ∧ ∀ m, x < 2 ^ m → b ≤ m) := by
  refine ⟨bit_width_zero w, ?_⟩
  intro hx0
  obtain ⟨b, hb, hpos, _, hlo, hhi⟩ := bit_width_bounds w x hw hx0 hx
  refine ⟨b, hb, hlo, hhi, ?_⟩
  intro m hm
  have := two_pow_lt_two_pow_imp (lt_of_le_of_lt hlo hm)
  omega

theorem bit_width_is_least_bit_count_witness :
    (8 ∈ [8, 16, 32, 64]) ∧ 5 < 2 ^ 8 ∧ bit_width 8 5 = some 3
      ∧ (bit_width 8 0 = some 0
        ∧ (5 ≠ 0 → ∃ b : Nat, bit_width 8 5 = some (b : Int)
            ∧ 2 ^ (b - 1) ≤ 5 ∧ 5 < 2 ^ b ∧ ∀ m, 5 < 2 ^ m → b ≤ m)) :=
  ⟨by decide, by decide, by decide, bit_width_is_least_bit_count 8 5 (by decide) (by decide)⟩

/-- C13: for every width `w` in {8,16,32,64} and every `w`-bit unsigned `x`,
`has_single_bit(x)` is true if and only if `x` is a nonzero power of two: there
is a `k` with `0 <= k < w` and `x == 2^k`; `has_single_bit(0)` is false. -/
theorem has_single_bit_iff_power_of_two (w x : Nat) (_hw : w ∈ [8, 16, 32, 64])
    (hx : x < 2 ^ w) :
    (has_single_bit w x = true ↔ ∃ k, k < w ∧ x = 2 ^ k)
      ∧ has_single_bit w 0 = false := by
  refine ⟨has_single_bit_iff w x hx, ?_⟩
  simp [has_single_bit]

theorem has_single_bit_iff_power_of_two_witness :
    (32 ∈ [8, 16, 32, 64]) ∧ 0x10000 < 2 ^ 32
      ∧ has_single_bit 32 0x10000 = true ∧ has_single_bit 32 0x10001 = false
      ∧ ((has_single_bit 32 0x10000 = true ↔ ∃ k, k < 32 ∧ 0x10000 = 2 ^ k)
        ∧ has_single_bit 32 0 = false) :=
  ⟨by decide, by decide, by decide, by decide,
    has_single_bit_iff_power_of_two 32 0x10000 (by decide) (by decide)⟩

/-- C14: for every width `w` in {8,16,32,64} and every `w`-bit unsigned `x`,
counting ones is counting the zeros of the `w`-bit complement
`~x = 2^w - 1 - x`: `countl_one(x) == countl_zero(~x)` and
`countr_one(x) == countr_zero(~x)`. Both return `w` when `x` is all-ones;
otherwise `countl_one` returns a `c < w` such that bit `w - 1 - c` of `x` is
clear and every bit above it is set, and `countr_one` returns a `c < w` such
that bit `c` of `x` is clear and every bit below it is set. -/
theorem count_ones_are_zero_counts_of_complement (w x : Nat) (hw : w ∈ [8, 16, 32, 64])
    (hx : x < 2 ^ w) :
    bitNot w x = 2 ^ w - 1 - x
      ∧ countl_one w x = countl_zero w (bitNot w x)
      ∧ countr_one w x = countr_zero w (bitNot w x)
      ∧ (x = 2 ^ w - 1 → countl_one w x = some (w : Int) ∧ countr_one w x = some (w : Int))
      ∧ (x ≠ 2 ^ w - 1 → ∃ c : Nat, countl_one w x = some (c : Int) ∧ c < w
          ∧ x.testBit (w - 1 - c) = false
          ∧ ∀ j, w - 1 - c < j → j < w → x.testBit j = true)
      ∧ (x ≠ 2 ^ w - 1 → ∃ c : Nat, countr_one w x = some (c : Int) ∧ c < w
          ∧ x.testBit c = false
          ∧ ∀ j, j < c → x.testBit j = true) := by
  refine ⟨bitNot_eq w x hw hx, countl_one_eq w x hw hx, rfl, ?_,
    countl_one_bits w x hw hx, countr_one_bits w x hw hx⟩
  intro hall
  have h0 := (bitNot_eq_zero_iff w x hw hx).2 hall
  constructor
  · rw [countl_one_eq w x hw hx, h0, countl_zero_zero]
  · unfold countr_one
    rw [h0, countr_zero_zero]

theorem count_ones_are_zero_counts_of_complement_witness :
    (8 ∈ [8, 16, 32, 64]) ∧ 0xE7 < 2 ^ 8
      ∧ countl_one 8 0xE7 = some 3 ∧ countr_one 8 0xE7 = some 3
      ∧ countl_one 8 0xFF = some 8 ∧ countr_one 8 0xFF = some 8
      ∧ (bitNot 8 0xE7 = 2 ^ 8 - 1 - 0xE7
        ∧ countl_one 8 0xE7 = countl_zero 8 (bitNot 8 0xE7)
        ∧ countr_one 8 0xE7 = countr_zero 8 (bitNot 8 0xE7)
        ∧ (0xE7 = 2 ^ 8 - 1 →
            countl_one 8 0xE7 = some ((8 : Nat) : Int) ∧ countr_one 8 0xE7 = some ((8 : Nat) : Int))
        ∧ (0xE7 ≠ 2 ^ 8 - 1 → ∃ c : Nat, countl_one 8 0xE7 = some (c : Int) ∧ c < 8
            ∧ (0xE7 : Nat).testBit (8 - 1 - c) = false
            ∧ ∀ j, 8 - 1 - c < j → j < 8 → (0xE7 : Nat).testBit j = true)
        ∧ (0xE7 ≠ 2 ^ 8 - 1 → ∃ c : Nat, countr_one 8 0xE7 = some (c : Int) ∧ c < 8
            ∧ (0xE7 : Nat).testBit c = false
            ∧ ∀ j, j < c → (0xE7 : Nat).testBit j = true)) :=
  ⟨by decide, by decide, by decide, by decide, by decide, by decide,
    count_ones_are_zero_counts_of_complement 8 0xE7 (by decide) (by decide)⟩

end ccm.support

/-! # Claim on the classification of integers -/

namespace ccm

/-- C15: the claim is that `ccm::isfinite(x)` returns true for every value `x` of
every integral type, all integers being finite. The integral overload returns
false, here on `0`, `42` and `-7`, while `ccm::isnan` is false on the same
inputs. -/
theorem isfinite_of_integer_is_false :
    isfinite 0 = false ∧ isfinite 42 = false ∧ isfinite (-7) = false
      ∧ isnan 0 = false ∧ isnan 42 = false ∧ isnan (-7) = false := by
  decide

end ccm

/-! # Claims on the scalar backend -/

namespace ccm.intrin

/-- C16: for every scalar-backend mask `m` and scalar-backend vectors `a` and
`b`, with a scalar `choose(bool, T, T)` that selects its second argument on true
and its third on false, `choose(m, a, b)` is a vector whose single lane is the
lane of `a` when the lane of `m` is true and the lane of `b` when it is false;
in particular `choose(mask(true), vector(1), vector(2))` holds 1 and
`choose(mask(false), vector(1), vector(2))` holds 2. -/
theorem choose_selects_lane_by_mask {T : Type} (chooseScalar : Bool → T → T → T)
    (hsel : ∀ x y : T, chooseScalar true x y = x ∧ chooseScalar false x y = y)
    (m : simd_mask T) (a b : simd T) :
    (m.get = true → (choose chooseScalar m a b).get = a.get)
      ∧ (m.get = false → (choose chooseScalar m a b).get = b.get)
      ∧ (choose (scalar_choose) (simd_mask.mk true) (simd.mk (1 : Int)) (simd.mk 2)).get = 1
      ∧ (choose (scalar_choose) (simd_mask.mk false) (simd.mk (1 : Int)) (simd.mk 2)).get = 2 := by
  refine ⟨?_, ?_, rfl, rfl⟩
  · intro h
    simp only [choose, simd.get]
    rw [h]
    exact (hsel _ _).1
  · intro h
    simp only [choose, simd.get]
    rw [h]
    exact (hsel _ _).2

theorem choose_selects_lane_by_mask_witness :
    (∀ x y : Int, scalar_choose true x y = x ∧ scalar_choose false x y = y)
      ∧ (((simd_mask.mk true : simd_mask Int).get = true →
          (choose scalar_choose (simd_mask.mk true) (simd.mk (1 : Int)) (simd.mk 2)).get
            = (simd.mk (1 : Int)).get)
        ∧ ((simd_mask.mk true : simd_mask Int).get = false →
          (choose scalar_choose (simd_mask.mk true) (simd.mk (1 : Int)) (simd.mk 2)).get
            = (simd.mk (2 : Int)).get)
        ∧ (choose (scalar_choose) (simd_mask.mk true) (simd.mk (1 : Int)) (simd.mk 2)).get = 1
        ∧ (choose (scalar_choose) (simd_mask.mk false) (simd.mk (1 : Int)) (simd.mk 2)).get = 2) :=
  ⟨fun _ _ => ⟨rfl, rfl⟩,
    choose_selects_lane_by_mask scalar_choose (fun _ _ => ⟨rfl, rfl⟩)
      (simd_mask.mk true) (simd.mk 1) (simd.mk 2)⟩

theorem convert_of_holds (T : IntegerType) (hT : T.bits ∈ [8, 16, 32, 64]) (r : Int)
    (h : T.holds r = true) : T.convert r = r := by
  obtain ⟨sg, bits⟩ := T
  simp only [List.mem_cons, List.mem_singleton, List.not_mem_nil, or_false] at hT
  unfold IntegerType.holds at h
  unfold IntegerType.convert
  cases sg <;> simp only [Bool.false_eq_true, if_false, if_true, decide_eq_true_eq] at h ⊢ <;>
    (rcases hT with rfl | rfl | rfl | rfl <;> norm_num at h ⊢ <;> omega)

theorem result_map_convert (T : IntegerType) (hT : T.bits ∈ [8, 16, 32, 64])
    (h32 : 32 ≤ T.bits) (z : Int) :
    (T.promoted.result z).map T.convert = T.promoted.result z := by
  have hp : T.promoted = T := by
    unfold IntegerType.promoted
    rw [if_neg (by omega)]
  rw [hp]
  obtain ⟨sg, bits⟩ := T
  simp only [List.mem_cons, List.mem_singleton, List.not_mem_nil, or_false] at hT
  unfold IntegerType.result
  cases sg
  · simp only [Bool.false_eq_true, if_false, Option.map_some', IntegerType.convert]
    congr 1
    exact Int.emod_emod_of_dvd z (dvd_refl _)
  · simp only [if_true]
    split
    · next h =>
      simp only [Option.map_some']
      rw [convert_of_holds _ (by simpa using hT) z h]
    · rfl

theorem lane_of_converted (T : IntegerType) (o : Option Int) :
    (o.map (fun (r : Int) => simd.mk (T.convert r))).map simd.get = o.map T.convert := by
  cases o <;> rfl

/-- C17, as stated, fails for an element type narrower than `int`: over
`unsigned char`, `vector(200) + vector(100)` holds 44, while
`a.get() + b.get()`, evaluated in `int`, is 300. -/
theorem narrow_vector_sum_is_converted :
    IntegerType.unsigned_char.holds 200 = true ∧ IntegerType.unsigned_char.holds 100 = true
      ∧ (simd.add IntegerType.unsigned_char (simd.mk 200) (simd.mk 100)).map simd.get = some 44
      ∧ IntegerType.unsigned_char.add (simd.mk 200).get (simd.mk 100).get = some 300
      ∧ (simd.add IntegerType.unsigned_char (simd.mk 200) (simd.mk 100)).map simd.get
          ≠ IntegerType.unsigned_char.add (simd.mk 200).get (simd.mk 100).get := by
  decide

/-- C17, amended: for all scalar-backend vectors `a` and `b` over an integer
element type `T` of 8, 16, 32 or 64 bits, the lane of `a + b` is the result of
the element type's own operation, evaluated after promotion, converted back to
`T`: `(a + b).get() == T(a.get() + b.get())`, likewise for `-`, `*`, `/` (for
`b.get() != 0`) and unary `-`, the vector operation being defined where the
operation of the element type is. The conversion leaves a value of `T`
unchanged, so for an element type not narrower than `int`
`(a + b).get() == a.get() + b.get()`, and likewise for the other operations.
`(a < b).get() == (a.get() < b.get())` and
`(a == b).get() == (a.get() == b.get())`, the comparisons returning a mask; e.g.
over `int`, `vector(2) * vector(3)` holds 6. -/
theorem vector_operations_act_on_the_lane (T : IntegerType) (a b : simd Int)
    (hT : T.bits ∈ [8, 16, 32, 64]) (_ha : T.holds a.get = true) (_hb : T.holds b.get = true) :
    ((simd.add T a b).map simd.get = (T.add a.get b.get).map T.convert
        ∧ (simd.sub T a b).map simd.get = (T.sub a.get b.get).map T.convert
        ∧ (simd.mul T a b).map simd.get = (T.mul a.get b.get).map T.convert
        ∧ (b.get ≠ 0 → (simd.div T a b).map simd.get = (T.div a.get b.get).map T.convert)
        ∧ (simd.neg T a).map simd.get = (T.neg a.get).map T.convert)
      ∧ (∀ r : Int, T.holds r = true → T.convert r = r)
      ∧ (32 ≤ T.bits →
          (simd.add T a b).map simd.get = T.add a.get b.get
          ∧ (simd.sub T a b).map simd.get = T.sub a.get b.get
          ∧ (simd.mul T a b).map simd.get = T.mul a.get b.get
          ∧ (b.get ≠ 0 → (simd.div T a b).map simd.get = T.div a.get b.get)
          ∧ (simd.neg T a).map simd.get = T.neg a.get)
      ∧ (simd.lt a b).get = decide (a.get < b.get)
      ∧ (simd.eq a b).get = decide (a.get = b.get)
      ∧ (simd.mul IntegerType.signed_int (simd.mk 2) (simd.mk 3)).map simd.get = some 6 := by
  refine ⟨⟨lane_of_converted T _, lane_of_converted T _, lane_of_converted T _,
      fun _ => lane_of_converted T _, lane_of_converted T _⟩,
    fun r hr => convert_of_holds T hT r hr, ?_, rfl, rfl, by decide⟩
  intro h32
  refine ⟨?_, ?_, ?_, ?_, ?_⟩
  · exact (lane_of_converted T _).trans (result_map_convert T hT h32 _)
  · exact (lane_of_converted T _).trans (result_map_convert T hT h32 _)
  · exact (lane_of_converted T _).trans (result_map_convert T hT h32 _)
  · intro hb0
    have key : T.div a.get b.get = T.promoted.result (Int.tdiv a.get b.get) := by
      unfold IntegerType.div
      rw [if_neg hb0]
    refine (lane_of_converted T _).trans ?_
    show Option.map T.convert (T.div a.get b.get) = T.div a.get b.get
    rw [key]
    exact result_map_convert T hT h32 _
  · exact (lane_of_converted T _).trans (result_map_convert T hT h32 _)

theorem vector_operations_act_on_the_lane_witness :
    (IntegerType.signed_int.bits ∈ [8, 16, 32, 64])
      ∧ IntegerType.signed_int.holds (simd.mk (-7)).get = true
      ∧ IntegerType.signed_int.holds (simd.mk 2).get = true
      ∧ 32 ≤ IntegerType.signed_int.bits ∧ (simd.mk (2 : Int)).get ≠ 0
      ∧ (simd.div IntegerType.signed_int (simd.mk (-7)) (simd.mk 2)).map simd.get = some (-3)
      ∧ (simd.add IntegerType.signed_int (simd.mk (-7)) (simd.mk 2)).map simd.get = some (-5)
      ∧ (simd.add IntegerType.signed_int (simd.mk 2147483647) (simd.mk 1)).map simd.get = none
      ∧ (simd.lt (simd.mk (-7)) (simd.mk 2)).get = true
      ∧ ((simd.add IntegerType.signed_int (simd.mk (-7)) (simd.mk 2)).map simd.get
            = IntegerType.signed_int.add (simd.mk (-7)).get (simd.mk 2).get
        ∧ (simd.sub IntegerType.signed_int (simd.mk (-7)) (simd.mk 2)).map simd.get
            = IntegerType.signed_int.sub (simd.mk (-7)).get (simd.mk 2).get
        ∧ (simd.mul IntegerType.signed_int (simd.mk (-7)) (simd.mk 2)).map simd.get
            = IntegerType.signed_int.mul (simd.mk (-7)).get (simd.mk 2).get
        ∧ ((simd.mk (2 : Int)).get ≠ 0 →
            (simd.div IntegerType.signed_int (simd.mk (-7)) (simd.mk 2)).map simd.get
              = IntegerType.signed_int.div (simd.mk (-7)).get (simd.mk 2).get)
        ∧ (simd.neg IntegerType.signed_int (simd.mk (-7))).map simd.get
            = IntegerType.signed_int.neg (simd.mk (-7)).get) :=
  ⟨by decide, by decide, by decide, by decide, by decide, by decide, by decide, by decide,
    by decide,
    (vector_operations_act_on_the_lane IntegerType.signed_int (simd.mk (-7)) (simd.mk 2)
      (by decide) (by decide) (by decide)).2.2.1 (by decide)⟩

/-- C18: for every scalar-backend mask `m`, whose lane count `size()` is 1,
`all_of(m) == m.get()` and `any_of(m) == m.get()`; hence `all_of` is the logical
AND of all lanes, `any_of` is the logical OR of all lanes, and
`all_of(m) == any_of(m)`. -/
theorem mask_reductions_are_the_lane {T : Type} (m : simd_mask T) :
    simd_mask.size T = 1
      ∧ m.lanes = [m.get]
      ∧ all_of m = m.get ∧ any_of m = m.get
      ∧ all_of m = m.lanes.all (fun lane => lane)
      ∧ any_of m = m.lanes.any (fun lane => lane)
      ∧ all_of m = any_of m := by
  refine ⟨rfl, rfl, rfl, rfl, ?_, ?_, rfl⟩
  · simp [simd_mask.lanes, simd_mask.size, all_of]
  · simp [simd_mask.lanes, simd_mask.size, any_of]

/-- C19: for every scalar-backend vector `v`, spilling to storage and loading
back preserves the lane: `simd(simd_storage(v)).get() == v.get()`; `copy_to`
into a one-element buffer followed by `copy_from` from that buffer yields a
vector with the same lane as `v`; and `simd_storage(v)[i] == v.get()` for every
index `i`. -/
theorem storage_round_trip_preserves_lane {T : Type} (v u : simd T) (uninit uninit2 buffer : T) :
    (simd.ofStorage uninit2 (simd_storage.ofSimd uninit v)).get = v.get
      ∧ (u.copy_from (v.copy_to buffer)).get = v.get
      ∧ (∀ i : Int, (simd_storage.ofSimd uninit v).index i = v.get) :=
  ⟨rfl, rfl, fun _ => rfl⟩

end ccm.intrin

/-! # bit_cast -/

namespace ccm.support

theorem popcountLoopCounted_fst (digits value : Nat) :
    ∀ (fuel i : Nat) (count : Int) (iterations : Nat),
      (popcountLoopCounted digits value fuel i count iterations).map (fun r => r.1)
        = popcountLoop digits value fuel i count := by
  intro fuel
  induction fuel with
  | zero => intro i count iterations; rfl
  | succ f ih =>
    intro i count iterations
    rw [popcountLoopCounted, popcountLoop]
    split
    · exact ih _ _ _
    · rfl

theorem popcountLoopCounted_snd (digits value : Nat) :
    ∀ (k fuel i : Nat) (count : Int) (iterations : Nat), i + k = digits → k < fuel →
      (popcountLoopCounted digits value fuel i count iterations).map (fun r => r.2)
        = some (iterations + k) := by
  intro k
  induction k with
  | zero =>
    intro fuel i count iterations hi hf
    obtain ⟨f, rfl⟩ : ∃ f, fuel = f + 1 := ⟨fuel - 1, by omega⟩
    have : i = digits := by omega
    subst this
    simp [popcountLoopCounted]
  | succ k ih =>
    intro fuel i count iterations hi hf
    obtain ⟨f, rfl⟩ : ∃ f, fuel = f + 1 := ⟨fuel - 1, by omega⟩
    have hne : i ≠ digits := by omega
    rw [popcountLoopCounted, if_pos hne, ih f (i + 1) _ _ (by omega) (by omega)]
    congr 1
    omega

theorem popcountIterations_eq (digits value : Nat) :
    popcountIterations digits value = some digits := by
  unfold popcountIterations
  rw [popcountLoopCounted_snd digits value digits (digits + 1) 0 0 0 (by omega) (by omega)]
  simp

theorem countl_zeroLoopCounted_fst :
    ∀ (fuel shift value zero_bits iterations : Nat),
      (countl_zeroLoopCounted fuel shift value zero_bits iterations).map (fun r => r.1)
        = countl_zeroLoop fuel shift value zero_bits := by
  intro fuel
  induction fuel with
  | zero => intro shift value zero_bits iterations; rfl
  | succ f ih =>
    intro shift value zero_bits iterations
    rw [countl_zeroLoopCounted, countl_zeroLoop]
    split
    · simp only []
      split
      · exact ih _ _ _ _
      · exact ih _ _ _ _
    · rfl

theorem countl_zeroLoopCounted_snd :
    ∀ (j fuel value zero_bits iterations : Nat), j < fuel →
      (countl_zeroLoopCounted fuel ((2 ^ j) >>> 1) value zero_bits iterations).map (fun r => r.2)
        = some (iterations + j) := by
  intro j
  induction j with
  | zero =>
    intro fuel value zero_bits iterations hf
    obtain ⟨f, rfl⟩ : ∃ f, fuel = f + 1 := ⟨fuel - 1, by omega⟩
    simp [countl_zeroLoopCounted]
  | succ j ih =>
    intro fuel value zero_bits iterations hf
    obtain ⟨f, rfl⟩ : ∃ f, fuel = f + 1 := ⟨fuel - 1, by omega⟩
    have hspos : 0 < 2 ^ j := by positivity
    rw [two_pow_shiftRight_one, countl_zeroLoopCounted, if_pos (by omega)]
    simp only []
    split
    · rw [ih f _ _ _ (by omega)]; congr 1; omega
    · rw [ih f _ _ _ (by omega)]; congr 1; omega

theorem countr_zeroLoopCounted_fst :
    ∀ (fuel shift mask value zero_bits iterations : Nat),
      (countr_zeroLoopCounted fuel shift mask value zero_bits iterations).map (fun r => r.1)
        = countr_zeroLoop fuel shift mask value zero_bits := by
  intro fuel
  induction fuel with
  | zero => intro shift mask value zero_bits iterations; rfl
  | succ f ih =>
    intro shift mask value zero_bits iterations
    rw [countr_zeroLoopCounted, countr_zeroLoop]
    split
    · split
      · exact ih _ _ _ _ _
      · exact ih _ _ _ _ _
    · rfl

theorem countr_zeroLoopCounted_snd :
    ∀ (j fuel mask value zero_bits iterations : Nat), j < fuel →
      (countr_zeroLoopCounted fuel ((2 ^ j) >>> 1) mask value zero_bits iterations).map
          (fun r => r.2)
        = some (iterations + j) := by
  intro j
  induction j with
  | zero =>
    intro fuel mask value zero_bits iterations hf
    obtain ⟨f, rfl⟩ : ∃ f, fuel = f + 1 := ⟨fuel - 1, by omega⟩
    simp [countr_zeroLoopCounted]
  | succ j ih =>
    intro fuel mask value zero_bits iterations hf
    obtain ⟨f, rfl⟩ : ∃ f, fuel = f + 1 := ⟨fuel - 1, by omega⟩
    have hspos : 0 < 2 ^ j := by positivity
    rw [two_pow_shiftRight_one, countr_zeroLoopCounted, if_pos (by omega)]
    split
    · rw [ih f _ _ _ _ (by omega)]; congr 1; omega
    · rw [ih f _ _ _ _ (by omega)]; congr 1; omega

theorem countl_zeroIterations_eq (k x : Nat) (hx0 : x ≠ 0) :
    countl_zeroIterations (2 ^ k) x = some k := by
  unfold countl_zeroIterations
  rw [if_neg hx0, countl_zeroLoopCounted_snd k (2 ^ k) x 0 0 (Nat.lt_two_pow k)]
  simp

theorem countr_zeroIterations_even (k x : Nat) (hx0 : x ≠ 0) (heven : x % 2 = 0) :
    countr_zeroIterations (2 ^ k) x = some k := by
  unfold countr_zeroIterations
  have h1 : ¬ (x &&& 0x1 ≠ 0) := by rw [Nat.and_one_is_mod]; omega
  rw [if_neg hx0, if_neg h1, countr_zeroLoopCounted_snd k (2 ^ k) _ x 0 0 (Nat.lt_two_pow k)]
  simp

theorem countr_zeroIterations_odd (w x : Nat) (hodd : x % 2 = 1) :
    countr_zeroIterations w x = some 0 := by
  unfold countr_zeroIterations
  have h0 : x ≠ 0 := by omega
  have h1 : x &&& 0x1 ≠ 0 := by rw [Nat.and_one_is_mod]; omega
  rw [if_neg h0, if_pos h1]

/-! ## Claim on iteration counts -/

/-- C21, as stated, fails for `countr_zero`: on the nonzero 8-bit input 1 its
bisection loop runs no iteration, not `log2(8) = 3`, because an odd `value`
returns 0 before the loop. -/
theorem countr_zero_loop_not_entered_for_odd_input :
    (8 ∈ [8, 16, 32, 64]) ∧ 1 < 2 ^ 8 ∧ (1 : Nat) ≠ 0 ∧ 8 = 2 ^ 3
      ∧ countr_zero 8 1 = some 0
      ∧ countr_zeroIterations 8 1 = some 0
      ∧ countr_zeroIterations 8 1 ≠ some 3 := by
  decide

/-- C21, amended: for every width `w` in {8,16,32,64} and every `w`-bit input,
the popcount loop runs exactly `w` iterations; the bisection loop of
`countl_zero` runs exactly `log2(w)` iterations for every nonzero input and none
for zero; the bisection loop of `countr_zero` runs exactly `log2(w)` iterations
for every nonzero even input and none for zero or for an odd input, which return
before the loop. The counted loops compute what the loops compute. -/
theorem loop_iterations_depend_on_width (w x : Nat) (hw : w ∈ [8, 16, 32, 64])
    (_hx : x < 2 ^ w) :
    popcountIterations w x = some w
      ∧ countl_zeroIterations w 0 = some 0
      ∧ countr_zeroIterations w 0 = some 0
      ∧ (x % 2 = 1 → countr_zeroIterations w x = some 0)
      ∧ (∃ k, w = 2 ^ k
          ∧ (x ≠ 0 → countl_zeroIterations w x = some k)
          ∧ (x ≠ 0 → x % 2 = 0 → countr_zeroIterations w x = some k))
      ∧ (popcountLoopCounted w x (w + 1) 0 0 0).map (fun r => r.1) = popcount w x
      ∧ (countl_zeroLoopCounted w (w >>> 1) x 0 0).map (fun r => r.1)
          = countl_zeroLoop w (w >>> 1) x 0
      ∧ (countr_zeroLoopCounted w (w >>> 1) ((2 ^ w - 1) >>> (w >>> 1)) x 0 0).map
            (fun r => r.1)
          = countr_zeroLoop w (w >>> 1) ((2 ^ w - 1) >>> (w >>> 1)) x 0 := by
  obtain ⟨k, hwk, _⟩ := width_is_two_pow w hw
  refine ⟨popcountIterations_eq w x, by simp [countl_zeroIterations],
    by simp [countr_zeroIterations], countr_zeroIterations_odd w x, ⟨k + 1, hwk, ?_, ?_⟩,
    popcountLoopCounted_fst w x _ _ _ _, countl_zeroLoopCounted_fst _ _ _ _ _,
    countr_zeroLoopCounted_fst _ _ _ _ _ _⟩
  · intro hx0
    rw [hwk]
    exact countl_zeroIterations_eq (k + 1) x hx0
  · intro hx0 heven
    rw [hwk]
    exact countr_zeroIterations_even (k + 1) x hx0 heven

theorem loop_iterations_depend_on_width_witness :
    (16 ∈ [8, 16, 32, 64]) ∧ 0xA540 < 2 ^ 16
      ∧ popcountIterations 16 0xA540 = some 16
      ∧ countl_zeroIterations 16 0xA540 = some 4
      ∧ countr_zeroIterations 16 0xA540 = some 4
      ∧ countr_zeroIterations 16 0xA541 = some 0
      ∧ (∃ k, 16 = 2 ^ k
          ∧ (0xA540 ≠ 0 → countl_zeroIterations 16 0xA540 = some k)
          ∧ (0xA540 ≠ 0 → 0xA540 % 2 = 0 → countr_zeroIterations 16 0xA540 = some k)) :=
  ⟨by decide, by decide, by decide, by decide, by decide, by decide,
    (loop_iterations_depend_on_width 16 0xA540 (by decide) (by decide)).2.2.2.2.1⟩

/-! ## Operations executed by rotr -/

theorem rotrShiftAmounts_cases (w : Nat) (cnt : Int) (hw : w ∈ [8, 16, 32, 64]) :
    rotrShiftAmounts w cnt = []
      ∨ ∃ k, 0 < k ∧ k < w ∧ rotrShiftAmounts w cnt = [k, w - k] := by
  have hw0 : 0 < w := by
    simp only [List.mem_cons, List.mem_singleton, List.not_mem_nil, or_false] at hw
    omega
  have hu := toUnsigned_mod w cnt hw
  have hu2 := toUnsigned_mod w (toInt (cnt * -1)) hw
  unfold rotrShiftAmounts
  simp only []
  simp only [List.mem_cons, List.mem_singleton, List.not_mem_nil, or_false] at hw
  split
  · exact Or.inl rfl
  · next h0 =>
    right
    split
    · refine ⟨toUnsigned (toInt (cnt * -1)) % w, ?_, Nat.mod_lt _ hw0, rfl⟩
      rw [hu2]
      rw [hu] at h0
      unfold toInt
      rcases hw with rfl | rfl | rfl | rfl <;> omega
    · exact ⟨toUnsigned cnt % w, by omega, Nat.mod_lt _ hw0, rfl⟩

theorem rotrNegated_ne_min (w : Nat) (cnt : Int) (hw : w ∈ [8, 16, 32, 64]) (c : Int)
    (h : rotrNegated w cnt = some c) : c = cnt ∧ c < 0 ∧ c ≠ -(2 ^ 31) := by
  have hu := toUnsigned_mod w cnt hw
  simp only [List.mem_cons, List.mem_singleton, List.not_mem_nil, or_false] at hw
  unfold rotrNegated at h
  simp only [] at h
  split at h
  · exact absurd h (by simp)
  · next h0 =>
    split at h
    · next hneg =>
      have hc : cnt = c := by simpa using h
      subst hc
      refine ⟨rfl, hneg, ?_⟩
      intro hmin
      rw [hu, hmin] at h0
      rcases hw with rfl | rfl | rfl | rfl <;> omega
    · exact absurd h (by simp)

theorem shiftLeft_lt_of_narrow (w t a : Nat) (hw : w ≤ 16) (ht : t < 2 ^ w) (ha : a < w) :
    t <<< a < 2 ^ 31 := by
  rw [Nat.shiftLeft_eq]
  calc t * 2 ^ a < 2 ^ w * 2 ^ a := Nat.mul_lt_mul_of_pos_right ht (by positivity)
    _ = 2 ^ (w + a) := (pow_add 2 w a).symm
    _ ≤ 2 ^ 31 := Nat.pow_le_pow_right (by decide) (by omega)

/-! ## Claim on the operations of rotr -/

/-- C22: for every width `w` in {8,16,32,64}, every `w`-bit unsigned `t` and every
32-bit signed `cnt`, the portable `rotr` performs no undefined operation:
whenever a shift is executed, its amount `k` and the complementary amount
`w - k` both lie strictly between 0 and `w` (and a left shift of a promoted
operand stays below `2^31`), and the negation `cnt *= -1` is never applied to
`INT_MIN`: `INT_MIN` is a multiple of `w`, so the early return is taken
first. -/
theorem rotr_performs_no_undefined_operation (w t : Nat) (cnt : Int)
    (hw : w ∈ [8, 16, 32, 64]) (ht : t < 2 ^ w) (hcnt : isInt cnt) :
    (∀ a ∈ rotrShiftAmounts w cnt, 0 < a ∧ a < w)
      ∧ (rotrShiftAmounts w cnt = []
          ∨ ∃ k, 0 < k ∧ k < w ∧ 0 < w - k ∧ w - k < w ∧ rotrShiftAmounts w cnt = [k, w - k])
      ∧ (∀ a ∈ rotrShiftAmounts w cnt, w < 32 → t <<< a < 2 ^ 31)
      ∧ rotrNegated w cnt ≠ some (-(2 ^ 31))
      ∧ (∀ c, rotrNegated w cnt = some c → isInt (c * -1))
      ∧ toUnsigned (-(2 ^ 31)) % w = 0
      ∧ rotrNegated w (-(2 ^ 31)) = none
      ∧ rotrShiftAmounts w (-(2 ^ 31)) = [] := by
  have hamounts : ∀ a ∈ rotrShiftAmounts w cnt, 0 < a ∧ a < w := by
    intro a ha
    rcases rotrShiftAmounts_cases w cnt hw with h | ⟨k, hk0, hkw, h⟩
    · rw [h] at ha; exact absurd ha (by simp)
    · rw [h] at ha
      simp only [List.mem_cons, List.mem_singleton, List.not_mem_nil, or_false] at ha
      rcases ha with rfl | rfl <;> omega
  have hmin : toUnsigned (-(2 ^ 31)) % w = 0 := by
    rw [toUnsigned_mod w _ hw]
    simp only [List.mem_cons, List.mem_singleton, List.not_mem_nil, or_false] at hw
    rcases hw with rfl | rfl | rfl | rfl <;> omega
  refine ⟨hamounts, ?_, ?_, ?_, ?_, hmin, ?_, ?_⟩
  · rcases rotrShiftAmounts_cases w cnt hw with h | ⟨k, hk0, hkw, h⟩
    · exact Or.inl h
    · exact Or.inr ⟨k, hk0, hkw, by omega, by omega, h⟩
  · intro a ha hnarrow
    have hw16 : w ≤ 16 := by
      simp only [List.mem_cons, List.mem_singleton, List.not_mem_nil, or_false] at hw
      omega
    exact shiftLeft_lt_of_narrow w t a hw16 ht (hamounts a ha).2
  · intro h
    exact (rotrNegated_ne_min w cnt hw _ h).2.2 rfl
  · intro c h
    obtain ⟨hc, hneg, hne⟩ := rotrNegated_ne_min w cnt hw c h
    unfold isInt at hcnt ⊢
    subst hc
    omega
  · unfold rotrNegated
    simp only []
    rw [if_pos hmin]
  · unfold rotrShiftAmounts
    simp only []
    rw [if_pos hmin]

theorem rotr_performs_no_undefined_operation_witness :
    (16 ∈ [8, 16, 32, 64]) ∧ 0x8001 < 2 ^ 16 ∧ isInt (-5)
      ∧ rotrShiftAmounts 16 (-5) = [5, 11] ∧ rotrNegated 16 (-5) = some (-5)
      ∧ (∀ a ∈ rotrShiftAmounts 16 (-5), 0 < a ∧ a < 16) :=
  ⟨by decide, by decide, by decide, by decide, by decide,
    (rotr_performs_no_undefined_operation 16 0x8001 (-5) (by decide) (by decide)
      (by decide)).1⟩

/-! ## Set bits under rotation and of powers of two -/

theorem rotate_index_lt (w : Nat) (z : Int) (hw : w ∈ [8, 16, 32, 64]) :
    (z % (w : Int)).toNat < w := by
  simp only [List.mem_cons, List.mem_singleton, List.not_mem_nil, or_false] at hw
  rcases hw with rfl | rfl | rfl | rfl <;> omega

theorem rotate_index_inverse (w i : Nat) (n m : Int) (hw : w ∈ [8, 16, 32, 64]) (hi : i < w)
    (hnm : (n + m) % (w : Int) = 0) :
    ((((((i : Int) + n) % (w : Int)).toNat : Nat) : Int) + m) % (w : Int) = (i : Int) := by
  simp only [List.mem_cons, List.mem_singleton, List.not_mem_nil, or_false] at hw
  rcases hw with rfl | rfl | rfl | rfl <;> omega

theorem setBits_rotr (w x : Nat) (n : Int) (hw : w ∈ [8, 16, 32, 64]) (hx : x < 2 ^ w) :
    setBits w (rotr w x n) = setBits w x := by
  have hsum : (n + -n) % (w : Int) = 0 := by simp
  have hsum2 : (-n + n) % (w : Int) = 0 := by simp
  unfold setBits
  refine Finset.card_nbij' (fun i => (((i : Int) + n) % (w : Int)).toNat)
    (fun j => (((j : Int) + -n) % (w : Int)).toNat) ?_ ?_ ?_ ?_
  · intro i hi
    simp only [Finset.mem_filter, Finset.mem_range] at hi ⊢
    refine ⟨rotate_index_lt w _ hw, ?_⟩
    rw [← rotr_testBit w x n hw hx i hi.1]
    exact hi.2
  · intro j hj
    simp only [Finset.mem_filter, Finset.mem_range] at hj ⊢
    have hlt := rotate_index_lt w ((j : Int) + -n) hw
    refine ⟨hlt, ?_⟩
    rw [rotr_testBit w x n hw hx _ hlt, rotate_index_inverse w j (-n) n hw hj.1 hsum2]
    simpa using hj.2
  · intro i hi
    simp only [Finset.mem_filter, Finset.mem_range] at hi
    simp only []
    rw [rotate_index_inverse w i n (-n) hw hi.1 hsum]
    simp
  · intro j hj
    simp only [Finset.mem_filter, Finset.mem_range] at hj
    simp only []
    rw [rotate_index_inverse w j (-n) n hw hj.1 hsum2]
    simp

theorem setBits_two_pow (w k : Nat) (hk : k < w) : setBits w (2 ^ k) = 1 := by
  unfold setBits
  have : (Finset.range w).filter (fun i => (2 ^ k).testBit i) = {k} := by
    ext i
    simp only [Finset.mem_filter, Finset.mem_range, Finset.mem_singleton, Nat.testBit_two_pow,
      decide_eq_true_eq]
    constructor
    · rintro ⟨_, h⟩; exact h.symm
    · rintro rfl; exact ⟨hk, rfl⟩
  rw [this, Finset.card_singleton]

theorem eq_two_pow_of_setBits_eq_one (w x : Nat) (hx : x < 2 ^ w) (h : setBits w x = 1) :
    ∃ k, k < w ∧ x = 2 ^ k := by
  unfold setBits at h
  obtain ⟨k, hk⟩ := Finset.card_eq_one.1 h
  have hmem : ∀ i, (i < w ∧ x.testBit i = true) ↔ i = k := by
    intro i
    have := Finset.ext_iff.1 hk i
    simpa only [Finset.mem_filter, Finset.mem_range, Finset.mem_singleton] using this
  have hkw : k < w := ((hmem k).2 rfl).1
  refine ⟨k, hkw, ?_⟩
  apply Nat.eq_of_testBit_eq
  intro i
  rw [Nat.testBit_two_pow]
  by_cases hik : i = k
  · subst hik
    rw [((hmem i).2 rfl).2]
    simp
  · have hne : ¬ (k = i) := fun h => hik h.symm
    simp only [hne, decide_False]
    by_cases hiw : i < w
    · by_contra hb
      have hb2 : x.testBit i = true := by simpa using hb
      exact hik ((hmem i).1 ⟨hiw, hb2⟩)
    · exact testBit_false_of_lt hx (by omega)

theorem has_single_bit_iff_setBits (w x : Nat) (hx : x < 2 ^ w) :
    has_single_bit w x = true ↔ setBits w x = 1 := by
  rw [has_single_bit_iff w x hx]
  constructor
  · rintro ⟨k, hk, rfl⟩
    exact setBits_two_pow w k hk
  · exact eq_two_pow_of_setBits_eq_one w x hx

/-! ## Claims relating popcount to rotation and to has_single_bit -/

/-- C23: the claim is that for every width `w` in {8,16,32,64}, every `w`-bit
unsigned `x` and every 32-bit signed count `n`, rotation preserves the number of
set bits: `popcount(rotr(x, n)) == popcount(x)` and
`popcount(rotl(x, n)) == popcount(x)`, with the portable loop `popcount`. The
code does so for `rotr` at every `n` and for `rotl` at every `n` other than
`INT_MIN`; at `INT_MIN`, `rotl` negates `INT_MIN` and has no result. -/
theorem popcount_is_invariant_under_rotation (w x : Nat) (n : Int)
    (hw : w ∈ [8, 16, 32, 64]) (hx : x < 2 ^ w) (hn : isInt n) :
    popcount w (rotr w x n) = popcount w x
      ∧ (n ≠ -(2 ^ 31) → (rotl w x n).bind (fun y => popcount w y) = popcount w x)
      ∧ (rotl w x (-(2 ^ 31))).bind (fun y => popcount w y) = none := by
  refine ⟨?_, ?_, ?_⟩
  · rw [popcount_eq_setBits, popcount_eq_setBits, setBits_rotr w x n hw hx]
  · intro hne
    rw [rotl_eq_some w x n hn hne]
    simp only [Option.some_bind]
    rw [popcount_eq_setBits, popcount_eq_setBits, setBits_rotr w x _ hw hx]
  · rw [rotl_int_min]
    rfl

theorem popcount_is_invariant_under_rotation_witness :
    (8 ∈ [8, 16, 32, 64]) ∧ 0x83 < 2 ^ 8 ∧ isInt (-19) ∧ (-19 : Int) ≠ -(2 ^ 31)
      ∧ rotr 8 0x83 (-19) = 0x1C ∧ rotl 8 0x83 (-19) = some 0x70
      ∧ popcount 8 0x83 = some 3
      ∧ popcount 8 (rotr 8 0x83 (-19)) = popcount 8 0x83
      ∧ (rotl 8 0x83 (-19)).bind (fun y => popcount 8 y) = popcount 8 0x83
      ∧ (rotl 8 0x83 (-(2 ^ 31))).bind (fun y => popcount 8 y) = none :=
  ⟨by decide, by decide, by decide, by decide, by decide, by decide, by decide,
    (popcount_is_invariant_under_rotation 8 0x83 (-19) (by decide) (by decide) (by decide)).1,
    (popcount_is_invariant_under_rotation 8 0x83 (-19) (by decide) (by decide)
      (by decide)).2.1 (by decide),
    (popcount_is_invariant_under_rotation 8 0x83 (-19) (by decide) (by decide) (by decide)).2.2⟩

/-- C24: for every width `w` in {8,16,32,64} and every `w`-bit unsigned `x`,
`has_single_bit(x)` is true if and only if the portable loop `popcount(x) == 1`. -/
theorem has_single_bit_iff_popcount_is_one (w x : Nat) (_hw : w ∈ [8, 16, 32, 64])
    (hx : x < 2 ^ w) :
    has_single_bit w x = true ↔ popcount w x = some 1 := by
  rw [has_single_bit_iff_setBits w x hx, popcount_eq_setBits]
  constructor
  · intro h; rw [h]; rfl
  · intro h
    have h2 : (setBits w x : Int) = 1 := Option.some.inj h
    exact_mod_cast h2

theorem has_single_bit_iff_popcount_is_one_witness :
    (64 ∈ [8, 16, 32, 64]) ∧ 0x0000010000000000 < 2 ^ 64
      ∧ has_single_bit 64 0x0000010000000000 = true
      ∧ popcount 64 0x0000010000000000 = some 1
      ∧ (has_single_bit 64 0x0000010000000000 = true
          ↔ popcount 64 0x0000010000000000 = some 1) :=
  ⟨by decide, by decide, by decide, by decide,
    has_single_bit_iff_popcount_is_one 64 0x0000010000000000 (by decide) (by decide)⟩

/-! ## Claim on top_bits -/

/-- C25: the generic `top_bits` agrees with the fixed helpers on every bit
pattern: for every 64-bit pattern `b` of a `double`,
`top_bits<double, 16>` and `top16_bits_of_double` both return `b >> 48`, and
`top_bits<double, 12>` and `top12_bits_of_double` both return `b >> 52`; for
every 32-bit pattern `f` of a `float`, `top_bits<float, 12>` and
`top12_bits_of_float` both return `f >> 20`. -/
theorem top_bits_agrees_with_fixed_helpers (b f : Nat) (hb : b < 2 ^ 64) (hf : f < 2 ^ 32) :
    top_bits Floating.isDouble 16 b = top16_bits_of_double b
      ∧ top16_bits_of_double b = b >>> 48
      ∧ top_bits Floating.isDouble 12 b = top12_bits_of_double b
      ∧ top12_bits_of_double b = b >>> 52
      ∧ top_bits Floating.isFloat 12 f = top12_bits_of_float f
      ∧ top12_bits_of_float f = f >>> 20 := by
  refine ⟨rfl, ?_, rfl, ?_, rfl, ?_⟩
  · simp only [top16_bits_of_double, bit_cast, uint64_t, double]
    omega
  · simp only [top12_bits_of_double, bit_cast, uint64_t, double]
    omega
  · simp only [top12_bits_of_float, bit_cast, uint32_t, float]
    omega

theorem top_bits_agrees_with_fixed_helpers_witness :
    0x3FF0000000000000 < 2 ^ 64 ∧ 0x3F800000 < 2 ^ 32
      ∧ top_bits Floating.isDouble 16 0x3FF0000000000000 = 0x3FF0
      ∧ top_bits Floating.isDouble 12 0x3FF0000000000000 = 0x3FF
      ∧ top_bits Floating.isFloat 12 0x3F800000 = 0x3F8
      ∧ (top_bits Floating.isDouble 16 0x3FF0000000000000
            = top16_bits_of_double 0x3FF0000000000000
        ∧ top16_bits_of_double 0x3FF0000000000000 = 0x3FF0000000000000 >>> 48
        ∧ top_bits Floating.isDouble 12 0x3FF0000000000000
            = top12_bits_of_double 0x3FF0000000000000
        ∧ top12_bits_of_double 0x3FF0000000000000 = 0x3FF0000000000000 >>> 52
        ∧ top_bits Floating.isFloat 12 0x3F800000 = top12_bits_of_float 0x3F800000
        ∧ top12_bits_of_float 0x3F800000 = 0x3F800000 >>> 20) :=
  ⟨by decide, by decide, by decide, by decide, by decide,
    top_bits_agrees_with_fixed_helpers 0x3FF0000000000000 0x3F800000 (by decide) (by decide)⟩

end ccm.support
